import Mathlib

/-!
Shallow embedding of the dir-mimic reconciliation core.

The embedding follows the two Python sources:

* `dir_mimic.py` — `FileRecord`, `classify_files`, `optimize_commands`,
  `generate_unix_commands`, `execute_file_operations`, `load_inventory`.
* `dirmimic.py` — the identification-level inference of `handle_mirror`.

Modelling conventions:

* Python dict-of-lists grouping (`group[key].append(record)`) is modelled by
  filtering the keyed list: `group.get(k, [])` equals the sublist of records
  whose key is `k`, in original order, which is exactly `List.filter`.
* Python iterates `set(a.keys()) | set(b.keys())` in an arbitrary order; the
  embedding fixes a deterministic refinement of it: first-occurrence
  deduplication of the concatenated key lists (`dedupF`).  All verified
  properties are insensitive to that ordering choice.
* Machine-level I/O (walking directories, hashing file bytes, opening files)
  sits outside the reconciliation core; the embedding starts from the
  in-memory record lists those collaborators produce, matching the spec's
  component boundary.
* Fallible code paths (Python `raise ValueError` for an invalid level) are
  modelled with `Option`: a `none` result marks the raising execution.
* `str(Path(p).parent)` is modelled for the relative, slash-normalized paths
  the program builds: the prefix of `p` before its last `/`, or `"."` when
  `p` has no slash.
-/

/-- One observed or recorded file: `FileRecord` from dir_mimic.py.
`sample_sha1` and `full_sha1` are the optional content fingerprints. -/
structure FileRecord where
  folder : String
  filename : String
  size : Nat
  sample_sha1 : Option String
  full_sha1 : Option String
deriving DecidableEq, Repr

/-- Identity keys returned by `FileRecord.get_identity_key`.  Python returns
tuples of different shapes per level; the inductive keeps them comparable yet
distinct across levels, exactly as Python tuple equality does. -/
inductive IdentityKey where
  | k1 (filename : String) (size : Nat)
  | k2 (filename : String) (size : Nat) (sample : Option String)
  | k3 (filename : String) (size : Nat) (full : Option String)
deriving DecidableEq, Repr

/-- `FileRecord.get_identity_key` from dir_mimic.py: key for file matching at
the given level; `none` models the `ValueError` raised on any other level. -/
def FileRecord.get_identity_key (r : FileRecord) (level : Nat) : Option IdentityKey :=
  if level = 1 then some (IdentityKey.k1 r.filename r.size)
  else if level = 2 then some (IdentityKey.k2 r.filename r.size r.sample_sha1)
  else if level = 3 then some (IdentityKey.k3 r.filename r.size r.full_sha1)
  else none

/-- `FileRecord.get_full_path` from dir_mimic.py: folder-qualified relative
path; an empty folder means the tree root. -/
def FileRecord.get_full_path (r : FileRecord) : String :=
  if r.folder = "" then r.filename else r.folder ++ "/" ++ r.filename

/-- Total variant of the identity key used once a level in {1,2,3} is fixed
(proof-side helper; agrees with `get_identity_key` on valid levels). -/
def keyAt (level : Nat) (r : FileRecord) : IdentityKey :=
  if level = 1 then IdentityKey.k1 r.filename r.size
  else if level = 2 then IdentityKey.k2 r.filename r.size r.sample_sha1
  else IdentityKey.k3 r.filename r.size r.full_sha1

/-- A record list tagged with its total keys: the successful outcome of the
keying loops on a valid level. -/
def tagged (level : Nat) (l : List FileRecord) : List (IdentityKey × FileRecord) :=
  l.map fun r => (keyAt level r, r)

/-- The pending-copy list tagged with total keys, source paths and
destinations: the successful outcome of the copy-grouping loop on a valid
level. -/
def taggedCopies (level : Nat) (l : List (FileRecord × String)) :
    List (IdentityKey × String × String) :=
  l.map fun rt => (keyAt level rt.1, rt.1.get_full_path, rt.2)

/-- Key every record of a list, failing (like the Python loops that call
`get_identity_key`) on the first record whose level is invalid. -/
def keyAll (level : Nat) : List FileRecord → Option (List (IdentityKey × FileRecord))
  | [] => some []
  | r :: rs =>
    match r.get_identity_key level, keyAll level rs with
    | some k, some l => some ((k, r) :: l)
    | _, _ => none

/-- Append an element to an accumulator unless already present: one step of
first-occurrence deduplication. -/
def insertOnce {α : Type} [DecidableEq α] (l : List α) (a : α) : List α :=
  if a ∈ l then l else l ++ [a]

/-- First-occurrence deduplication: the deterministic order this embedding
fixes for Python's arbitrary set iteration order. -/
def dedupF {α : Type} [DecidableEq α] (l : List α) : List α :=
  l.foldl insertOnce []

/-- Records of a keyed list carrying the given key, in original order; this
is what the Python `defaultdict`-style grouping stores under `k`. -/
def recsOf (l : List (IdentityKey × FileRecord)) (k : IdentityKey) : List FileRecord :=
  (l.filter fun p => decide (p.1 = k)).map Prod.snd

/-- The set of relative paths of a record list, as `classify_files` builds it
with a set comprehension (first-occurrence order stands in for Python's
arbitrary set order). -/
def pathsOf (l : List FileRecord) : List String :=
  dedupF (l.map FileRecord.get_full_path)

/-- The `unchanged` pairs of one identity: for every path common to both
sides, the first inventory record and first target record at that path
(Python's `next(...)` lookups). -/
def unchangedOf (invR tgtR : List FileRecord) : List (FileRecord × FileRecord) :=
  ((pathsOf invR).filter fun p => decide (p ∈ pathsOf tgtR)).filterMap fun p =>
    match invR.find? (fun r => decide (r.get_full_path = p)),
          tgtR.find? (fun r => decide (r.get_full_path = p)) with
    | some ir, some tr => some (ir, tr)
    | _, _ => none

/-- The `missing_paths` of one identity: inventory paths absent from the
target side. -/
def toCopyPathsOf (invR tgtR : List FileRecord) : List String :=
  (pathsOf invR).filter fun p => decide (p ∉ pathsOf tgtR)

/-- The `extra` records of one identity present on both sides: the first
target record at each target path not demanded by the inventory. -/
def extraRecsOf (invR tgtR : List FileRecord) : List FileRecord :=
  ((pathsOf tgtR).filter fun p => decide (p ∉ pathsOf invR)).filterMap fun p =>
    tgtR.find? fun r => decide (r.get_full_path = p)

/-- Per-identity body of `classify_files`: given the inventory records and
target records sharing one identity key, produce that identity's
contribution to the four outcome classes.  In the branch where both sides
are inhabited, `missing` stays empty because Python's
`elif missing_paths and not tgt_records` guard can never fire there. -/
def classifyKey (invR tgtR : List FileRecord) :
    List (FileRecord × FileRecord) × List (FileRecord × String) ×
      List FileRecord × List FileRecord :=
  match invR, tgtR with
  | [], _ => ([], [], [], tgtR)
  | _ :: _, [] => ([], [], invR, [])
  | i0 :: ir, t0 :: tr =>
    (unchangedOf (i0 :: ir) (t0 :: tr),
     (toCopyPathsOf (i0 :: ir) (t0 :: tr)).map fun p => (t0, p),
     [],
     extraRecsOf (i0 :: ir) (t0 :: tr))

/-- Key-indexed core of `classify_files`, looping over the union of the two
key sets and concatenating each identity's contribution. -/
def classifyKeyed (invK tgtK : List (IdentityKey × FileRecord)) :
    List (FileRecord × FileRecord) × List (FileRecord × String) ×
      List FileRecord × List FileRecord :=
  let keys := dedupF (invK.map Prod.fst ++ tgtK.map Prod.fst)
  (keys.flatMap fun k => (classifyKey (recsOf invK k) (recsOf tgtK k)).1,
   keys.flatMap fun k => (classifyKey (recsOf invK k) (recsOf tgtK k)).2.1,
   keys.flatMap fun k => (classifyKey (recsOf invK k) (recsOf tgtK k)).2.2.1,
   keys.flatMap fun k => (classifyKey (recsOf invK k) (recsOf tgtK k)).2.2.2)

/-- `classify_files` from dir_mimic.py: classify files as unchanged, needing
copy, missing, or extra.  `none` models the `ValueError` raised while keying
records at an invalid level. -/
def classify_files (inventory_records target_records : List FileRecord) (level : Nat) :
    Option (List (FileRecord × FileRecord) × List (FileRecord × String) ×
      List FileRecord × List FileRecord) :=
  match keyAll level inventory_records, keyAll level target_records with
  | some invK, some tgtK => some (classifyKeyed invK tgtK)
  | _, _ => none

/-- Key every pending copy, pairing the key with the source path and the
target path — the contents Python stores in `copy_by_identity`. -/
def keyCopies (level : Nat) :
    List (FileRecord × String) → Option (List (IdentityKey × String × String))
  | [] => some []
  | (r, t) :: rest =>
    match r.get_identity_key level, keyCopies level rest with
    | some k, some l => some ((k, r.get_full_path, t) :: l)
    | _, _ => none

/-- Scan of `enumerate(delete_paths)` looking for the first index not yet in
`used_delete_indices`; `i` is the current enumeration index. -/
def firstUnused : List String → Nat → List Nat → Option (Nat × String)
  | [], _, _ => none
  | p :: rest, i, used =>
    if i ∈ used then firstUnused rest (i + 1) used else some (i, p)

/-- Mutable state of the per-identity loop of `optimize_commands`:
`used_delete_indices`, the moves emitted so far, and the copies kept so far. -/
structure KeyOpt where
  used : List Nat
  mvs : List (String × String)
  remCp : List (FileRecord × String)
deriving DecidableEq, Repr

/-- Per-identity loop of `optimize_commands` over `copy_ops`: each copy
either consumes the first unused delete path as a move source, or stays a
copy whose original source record is looked up in `to_copy`. -/
def optKeyLoop (to_copy : List (FileRecord × String)) (delPaths : List String) :
    List (String × String) → KeyOpt → KeyOpt
  | [], st => st
  | (sp, tp) :: rest, st =>
    match firstUnused delPaths 0 st.used with
    | some (i, dp) =>
      optKeyLoop to_copy delPaths rest
        ⟨st.used ++ [i], st.mvs ++ [(dp, tp)], st.remCp⟩
    | none =>
      match to_copy.find? (fun rt => decide (rt.1.get_full_path = sp ∧ rt.2 = tp)) with
      | some rt =>
        optKeyLoop to_copy delPaths rest ⟨st.used, st.mvs, st.remCp ++ [(rt.1, tp)]⟩
      | none => optKeyLoop to_copy delPaths rest st

/-- The original-source lookup a surviving copy performs in `to_copy`: the
first entry whose source path and destination match the copy operation. -/
def lkup (tc : List (FileRecord × String)) (op : String × String) :
    Option (FileRecord × String) :=
  (tc.find? fun rt => decide (rt.1.get_full_path = op.1 ∧ rt.2 = op.2)).map
    fun rt => (rt.1, op.2)

/-- The `enumerate(delete_records)` pass keeping records whose index was not
consumed for a move; `i` is the current enumeration index. -/
def remDeletes (used : List Nat) : Nat → List FileRecord → List FileRecord
  | _, [] => []
  | i, r :: rest =>
    if i ∈ used then remDeletes used (i + 1) rest else r :: remDeletes used (i + 1) rest

/-- Records of a keyed copy list carrying the given key. -/
def copiesOf (l : List (IdentityKey × String × String)) (k : IdentityKey) :
    List (String × String) :=
  (l.filter fun c => decide (c.1 = k)).map Prod.snd

/-- One identity's slice of `optimize_commands`: run the pairing loop and
compute the surviving delete records. -/
def optKeyAt (to_copy : List (FileRecord × String))
    (copyK : List (IdentityKey × String × String))
    (delK : List (IdentityKey × FileRecord)) (k : IdentityKey) :
    KeyOpt × List FileRecord :=
  let copyOps := copiesOf copyK k
  let delRecs := recsOf delK k
  let delPaths := delRecs.map FileRecord.get_full_path
  let st := optKeyLoop to_copy delPaths copyOps ⟨[], [], []⟩
  (st, remDeletes st.used 0 delRecs)

/-- Key-indexed core of `optimize_commands`, looping over the union of the
copy and delete key sets and concatenating each identity's moves, surviving
copies and surviving deletes. -/
def optimizeKeyed (to_copy : List (FileRecord × String))
    (copyK : List (IdentityKey × String × String))
    (delK : List (IdentityKey × FileRecord)) :
    List (String × String) × List (FileRecord × String) × List FileRecord :=
  let keys := dedupF (copyK.map Prod.fst ++ delK.map Prod.fst)
  (keys.flatMap fun k => (optKeyAt to_copy copyK delK k).1.mvs,
   keys.flatMap fun k => (optKeyAt to_copy copyK delK k).1.remCp,
   keys.flatMap fun k => (optKeyAt to_copy copyK delK k).2)

/-- `optimize_commands` from dir_mimic.py: fold cp + rm pairs of one identity
into mv operations; returns the moves, remaining copies and remaining
deletes.  `none` models the `ValueError` raised at an invalid level. -/
def optimize_commands (to_copy : List (FileRecord × String)) (extra : List FileRecord)
    (level : Nat) :
    Option (List (String × String) × List (FileRecord × String) × List FileRecord) :=
  match keyCopies level to_copy, keyAll level extra with
  | some copyK, some delK => some (optimizeKeyed to_copy copyK delK)
  | _, _ => none

/-- Dry-run command lines built by `generate_unix_commands`, kept as an
inductive so each shell line's kind and payload stay visible. -/
inductive Command where
  | echoUnchanged (path : String)
  | mkdirp (dir : String)
  | mv (src dst : String)
  | cp (src dst : String)
  | rm (path : String)
  | todoMissing (path : String)
deriving DecidableEq, Repr

/-- Split a character list at slashes (the list of path segments; an empty
input yields one empty segment, like Python `"".split("/")`). -/
def splitSlash : List Char → List (List Char)
  | [] => [[]]
  | c :: rest =>
    match splitSlash rest with
    | [] => [[c]]
    | g :: gs => if c = '/' then [] :: g :: gs else (c :: g) :: gs

/-- Join path segments with slashes. -/
def joinSlash : List (List Char) → List Char
  | [] => []
  | [g] => g
  | g :: gs => g ++ '/' :: joinSlash gs

/-- Model of `str(Path(p).parent)` for the slash-normalized relative paths
the program builds: the prefix before the last slash, `"."` if no slash. -/
def pyParent (p : String) : String :=
  let parts := splitSlash p.toList
  if parts.length ≤ 1 then "." else String.mk (joinSlash parts.dropLast)

/-- The `mkdir -p` guard emitted before a mv/cp destination whose parent is
neither empty nor the current directory. -/
def mkGuard (target_path : String) : List Command :=
  if pyParent target_path ≠ "" ∧ pyParent target_path ≠ "." then
    [Command.mkdirp (pyParent target_path)]
  else []

/-- `generate_unix_commands` from dir_mimic.py (its unused `target_dir`
parameter is dropped): the dry-run command list.  `none` models the
`ValueError` an invalid level raises inside `optimize_commands`. -/
def generate_unix_commands (unchanged : List (FileRecord × FileRecord))
    (to_copy : List (FileRecord × String)) (missing : List FileRecord)
    (extra : List FileRecord) (verbose : Bool) (delete_extra : Bool)
    (level : Nat) : Option (List Command) :=
  let echoes :=
    if verbose then unchanged.map (fun ut => Command.echoUnchanged ut.2.get_full_path)
    else []
  let todos := missing.map fun r => Command.todoMissing r.get_full_path
  if delete_extra then
    match optimize_commands to_copy extra level with
    | none => none
    | some (mvs, rcp, rrm) =>
      some (echoes
        ++ mvs.flatMap (fun st => mkGuard st.2 ++ [Command.mv st.1 st.2])
        ++ rcp.flatMap (fun rt => mkGuard rt.2 ++ [Command.cp rt.1.get_full_path rt.2])
        ++ rrm.map (fun r => Command.rm r.get_full_path)
        ++ todos)
  else
    some (echoes
      ++ to_copy.flatMap (fun rt => mkGuard rt.2 ++ [Command.cp rt.1.get_full_path rt.2])
      ++ todos)

/-- Filesystem primitives attempted by `execute_file_operations` (paths are
target-relative; the uniform `target_dir /` prefix is dropped). -/
inductive FsOp where
  | mkdirParents (dir : String)
  | move (src dst : String)
  | copy (src dst : String)
  | unlink (path : String)
deriving DecidableEq, Repr

/-- Verbose per-move message of `execute_file_operations`. -/
def moveMsg (src dst : String) : String := "Moved: " ++ src ++ " -> " ++ dst

/-- Verbose per-copy message of `execute_file_operations`. -/
def copyMsg (src dst : String) : String := "Copied: " ++ src ++ " -> " ++ dst

/-- Verbose per-delete message of `execute_file_operations`. -/
def delMsg (p : String) : String := "Deleted: " ++ p

/-- The missing-files warning of `execute_file_operations`. -/
def warnMissing (n : Nat) : String :=
  "Warning: " ++ toString n ++ " files need to be copied from source (not implemented)"

/-- `execute_file_operations` from dir_mimic.py, modelled as the sequence of
filesystem operations it attempts plus the progress messages it prints
(per-operation error prints of failing operations are environment events and
not modelled; a failure never changes which operations are attempted).  The
unused `unchanged` parameter is kept for signature fidelity.  `none` models
the `ValueError` an invalid level raises inside `optimize_commands`. -/
def execute_file_operations (_unchanged : List (FileRecord × FileRecord))
    (to_copy : List (FileRecord × String)) (missing : List FileRecord)
    (extra : List FileRecord) (delete_extra : Bool) (verbose : Bool)
    (level : Nat) : Option (List FsOp × List String) :=
  let warn :=
    if !missing.isEmpty && verbose then [warnMissing missing.length] else []
  if delete_extra then
    match optimize_commands to_copy extra level with
    | none => none
    | some (mvs, rcp, rrm) =>
      some (mvs.flatMap (fun st => [FsOp.mkdirParents (pyParent st.2), FsOp.move st.1 st.2])
          ++ rcp.flatMap (fun rt =>
              [FsOp.mkdirParents (pyParent rt.2), FsOp.copy rt.1.get_full_path rt.2])
          ++ rrm.map (fun r => FsOp.unlink r.get_full_path),
        (if verbose then mvs.map (fun st => moveMsg st.1 st.2) else [])
          ++ (if verbose then rcp.map (fun rt => copyMsg rt.1.get_full_path rt.2) else [])
          ++ (if verbose then rrm.map (fun r => delMsg r.get_full_path) else [])
          ++ warn)
  else
    some (to_copy.flatMap (fun rt =>
        [FsOp.mkdirParents (pyParent rt.2), FsOp.copy rt.1.get_full_path rt.2]),
      (if verbose then to_copy.map (fun rt => copyMsg rt.1.get_full_path rt.2) else [])
        ++ warn)


namespace Dirmimic

/-- Level inference loop of `handle_mirror` in dirmimic.py: `level` starts at
`-1` and is set from the fields present on the first inventory entry
(`full_sha1` ⇒ 3, else `sample_sha1` ⇒ 2, else 1); later entries leave it
unchanged.  Entries are the already-parsed JSON lines (parsing is at the I/O
boundary; `handle_mirror` itself parses each line unguarded). -/
def inferLevel (entries : List FileRecord) : Int :=
  entries.foldl
    (fun lv e =>
      if lv = -1 then
        if e.full_sha1.isSome then 3 else if e.sample_sha1.isSome then 2 else 1
      else lv)
    (-1)

/-- The fatal check after the inventory loop of `handle_mirror`: a level
still equal to `-1` (no inventory line at all) aborts the run with an error
before the target directory is even scanned. -/
def handle_mirror_level (entries : List FileRecord) : Option Nat :=
  let lv := inferLevel entries
  if lv = -1 then none else some lv.toNat

end Dirmimic

namespace Load

/-- One parsed JSON object of an inventory line; every field is optional
because a JSON object may omit any key.  JSON value-type mismatches are not
modelled (the Python loader does not check types either). -/
structure JsonObj where
  folder : Option String
  filename : Option String
  size : Option Nat
  sample_sha1 : Option String
  full_sha1 : Option String
deriving DecidableEq, Repr

/-- One physical line of the inventory file, as seen by `load_inventory`
after `line.strip()`: blank, undecodable JSON, or a decoded object. -/
inductive InvLine where
  | blank
  | invalidJson
  | obj (o : JsonObj)
deriving DecidableEq, Repr

/-- Record construction inside `load_inventory`: `folder` defaults to the
empty string, while a missing `filename` or `size` raises `KeyError`
(modelled as `none`). -/
def mkRecord (o : JsonObj) : Option FileRecord :=
  match o.filename, o.size with
  | some fn, some sz => some ⟨o.folder.getD "", fn, sz, o.sample_sha1, o.full_sha1⟩
  | _, _ => none

/-- `load_inventory` from dir_mimic.py over the lines of a readable file,
starting at line number `n`: returns the loaded records together with the
line numbers warned about (each `JSONDecodeError`/`KeyError` prints a
warning and continues).  File-absence and read errors are I/O-boundary
events outside this pure model; on a readable file the loader is total. -/
def load_inventory : Nat → List InvLine → List FileRecord × List Nat
  | _, [] => ([], [])
  | n, InvLine.blank :: rest => load_inventory (n + 1) rest
  | n, InvLine.invalidJson :: rest =>
    let (rs, ws) := load_inventory (n + 1) rest
    (rs, n :: ws)
  | n, InvLine.obj o :: rest =>
    match mkRecord o with
    | some r =>
      let (rs, ws) := load_inventory (n + 1) rest
      (r :: rs, ws)
    | none =>
      let (rs, ws) := load_inventory (n + 1) rest
      (rs, n :: ws)

/-- The record a line contributes, if any. -/
def lineRecord : InvLine → Option FileRecord
  | InvLine.obj o => mkRecord o
  | _ => none

/-- Whether a line is malformed (invalid JSON or a missing required field). -/
def lineBad : InvLine → Bool
  | InvLine.invalidJson => true
  | InvLine.obj o => (mkRecord o).isNone
  | InvLine.blank => false

end Load

/-- Some record of the list sits at path `p`. -/
def anyPath (l : List FileRecord) (p : String) : Prop :=
  ∃ r ∈ l, r.get_full_path = p

/-- Some unchanged pair's inventory record sits at path `p`. -/
def anyPairPath (l : List (FileRecord × FileRecord)) (p : String) : Prop :=
  ∃ pr ∈ l, pr.1.get_full_path = p

/-- Some pending copy has destination `p`. -/
def anyDest (l : List (FileRecord × String)) (p : String) : Prop :=
  ∃ st ∈ l, st.2 = p

/-- Some record of the list has identity key `k` and sits at path `p`. -/
def keyPath (level : Nat) (l : List FileRecord) (k : IdentityKey) (p : String) : Prop :=
  ∃ r ∈ l, r.get_identity_key level = some k ∧ r.get_full_path = p

/-- Some unchanged pair's inventory record has identity key `k` and sits at
path `p`. -/
def keyPairPath (level : Nat) (l : List (FileRecord × FileRecord)) (k : IdentityKey)
    (p : String) : Prop :=
  ∃ pr ∈ l, pr.1.get_identity_key level = some k ∧ pr.1.get_full_path = p

/-- Some pending copy has a source record of identity key `k` and destination
`p`. -/
def keyDest (level : Nat) (l : List (FileRecord × String)) (k : IdentityKey)
    (p : String) : Prop :=
  ∃ st ∈ l, st.1.get_identity_key level = some k ∧ st.2 = p

/-- The identity keys `optimize_commands` loops over, for a valid level:
copy keys then delete keys, first occurrences only. -/
def keysAt (level : Nat) (to_copy : List (FileRecord × String)) (extra : List FileRecord) :
    List IdentityKey :=
  dedupF (to_copy.map (fun rt => keyAt level rt.1) ++ extra.map (keyAt level))

/-- Destinations of the pending copies of identity `k`, in discovery order. -/
def copyDestsAt (level : Nat) (to_copy : List (FileRecord × String)) (k : IdentityKey) :
    List String :=
  (to_copy.filter fun rt => decide (keyAt level rt.1 = k)).map Prod.snd

/-- Paths of the pending deletes of identity `k`, in discovery order. -/
def delPathsAt (level : Nat) (extra : List FileRecord) (k : IdentityKey) : List String :=
  (extra.filter fun r => decide (keyAt level r = k)).map FileRecord.get_full_path

/-- The parent directory a dry-run command writes into, when it needs one:
`mv`/`cp` destinations whose parent is neither empty nor `"."`. -/
def needsDir : Command → Option String
  | Command.mv _ d =>
    if pyParent d ≠ "" ∧ pyParent d ≠ "." then some (pyParent d) else none
  | Command.cp _ d =>
    if pyParent d ≠ "" ∧ pyParent d ≠ "." then some (pyParent d) else none
  | _ => none

/-- Scan of a command list checking that every command needing a parent
directory is immediately preceded by the matching `mkdir -p`; `prev` is the
previous command, if any. -/
def mkdirBeforeAux : Option Command → List Command → Bool
  | _, [] => true
  | prev, c :: rest =>
    (match needsDir c with
     | some d => decide (prev = some (Command.mkdirp d))
     | none => true) && mkdirBeforeAux (some c) rest

/-- Every `mv`/`cp` of the command list that writes into a non-root parent is
immediately preceded by the matching `mkdir -p`. -/
def mkdirBefore (l : List Command) : Bool :=
  mkdirBeforeAux none l

/-- The parent directory an executed operation writes into: `move`/`copy`
destinations (execution always ensures the parent, with no root check). -/
def opNeedsDir : FsOp → Option String
  | FsOp.move _ d => some (pyParent d)
  | FsOp.copy _ d => some (pyParent d)
  | _ => none

/-- Scan of an operation list checking that every move/copy is immediately
preceded by the parent-creating `mkdir`; `prev` is the previous operation. -/
def opsDirAux : Option FsOp → List FsOp → Bool
  | _, [] => true
  | prev, c :: rest =>
    (match opNeedsDir c with
     | some d => decide (prev = some (FsOp.mkdirParents d))
     | none => true) && opsDirAux (some c) rest

/-- Every `move`/`copy` of the operation list is immediately preceded by the
parent-creating `mkdir`. -/
def opsDirBefore (l : List FsOp) : Bool :=
  opsDirAux none l

/-- The last element of a list, or a fallback when the list is empty. -/
def lastOr {α : Type} (dflt : Option α) (l : List α) : Option α :=
  l.foldl (fun _ c => some c) dflt

/-- On a valid level, `get_identity_key` never raises and agrees with the
total key function. -/
theorem get_identity_key_valid (r : FileRecord) (level : Nat)
    (hl : level = 1 ∨ level = 2 ∨ level = 3) :
    r.get_identity_key level = some (keyAt level r) := by
  rcases hl with h | h | h <;> subst h <;> rfl

/-- On a valid level, keying a record list succeeds and tags each record with
its total key. -/
theorem keyAll_valid (level : Nat) (hl : level = 1 ∨ level = 2 ∨ level = 3)
    (l : List FileRecord) :
    keyAll level l = some (tagged level l) := by
  induction l with
  | nil => rfl
  | cons r rs ih => simp [keyAll, tagged, get_identity_key_valid r level hl, ih]

/-- On a valid level, keying the pending copies succeeds and tags each with
its source record's total key, source path and destination. -/
theorem keyCopies_valid (level : Nat) (hl : level = 1 ∨ level = 2 ∨ level = 3)
    (l : List (FileRecord × String)) :
    keyCopies level l = some (taggedCopies level l) := by
  induction l with
  | nil => rfl
  | cons rt rest ih =>
    obtain ⟨r, t⟩ := rt
    simp [keyCopies, taggedCopies, get_identity_key_valid r level hl, ih]

/-- Membership in a fold of `insertOnce` is membership in the accumulator or
in the folded list. -/
theorem mem_foldl_insertOnce {α : Type} [DecidableEq α] (l : List α) (acc : List α)
    (x : α) : x ∈ l.foldl insertOnce acc ↔ x ∈ acc ∨ x ∈ l := by
  induction l generalizing acc with
  | nil => simp
  | cons a l ih =>
    simp only [List.foldl_cons, ih, insertOnce, List.mem_cons]
    by_cases h : a ∈ acc
    · simp only [if_pos h]
      constructor
      · rintro (hx | hx)
        · exact Or.inl hx
        · exact Or.inr (Or.inr hx)
      · rintro (hx | rfl | hx)
        · exact Or.inl hx
        · exact Or.inl h
        · exact Or.inr hx
    · simp only [if_neg h, List.mem_append, List.mem_singleton, or_assoc]
  
/-- A fold of `insertOnce` keeps the accumulator duplicate-free. -/
theorem nodup_foldl_insertOnce {α : Type} [DecidableEq α] (l : List α) (acc : List α)
    (h : acc.Nodup) : (l.foldl insertOnce acc).Nodup := by
  induction l generalizing acc with
  | nil => exact h
  | cons a l ih =>
    refine ih _ ?_
    unfold insertOnce
    by_cases hm : a ∈ acc
    · simpa [hm]
    · rw [if_neg hm, List.nodup_append]
      exact ⟨h, List.nodup_singleton a, fun x hx hx' => hm (by
        rw [List.mem_singleton] at hx'
        subst hx'
        exact hx)⟩

/-- Membership is preserved by first-occurrence deduplication. -/
theorem mem_dedupF {α : Type} [DecidableEq α] (l : List α) (x : α) :
    x ∈ dedupF l ↔ x ∈ l := by
  simp [dedupF, mem_foldl_insertOnce]

/-- First-occurrence deduplication yields a duplicate-free list. -/
theorem nodup_dedupF {α : Type} [DecidableEq α] (l : List α) : (dedupF l).Nodup :=
  nodup_foldl_insertOnce l [] List.nodup_nil

/-- Unfolding `recsOf` over a cons cell. -/
theorem recsOf_cons (p : IdentityKey × FileRecord) (l : List (IdentityKey × FileRecord))
    (k : IdentityKey) :
    recsOf (p :: l) k = if p.1 = k then p.2 :: recsOf l k else recsOf l k := by
  by_cases h : p.1 = k <;> simp [recsOf, List.filter_cons, h]

/-- Grouping a tagged record list by key is filtering by key. -/
theorem recsOf_map (level : Nat) (l : List FileRecord) (k : IdentityKey) :
    recsOf (tagged level l) k = l.filter fun r => decide (keyAt level r = k) := by
  induction l with
  | nil => rfl
  | cons r rs ih =>
    rw [tagged, List.map_cons, recsOf_cons, List.filter_cons]
    rw [tagged] at ih
    by_cases h : keyAt level r = k <;> simp [h, ih]

/-- Unfolding `copiesOf` over a cons cell. -/
theorem copiesOf_cons (c : IdentityKey × String × String)
    (l : List (IdentityKey × String × String)) (k : IdentityKey) :
    copiesOf (c :: l) k = if c.1 = k then c.2 :: copiesOf l k else copiesOf l k := by
  by_cases h : c.1 = k <;> simp [copiesOf, List.filter_cons, h]

/-- Grouping the tagged copy list by key is filtering by source-record key. -/
theorem copiesOf_map (level : Nat) (l : List (FileRecord × String)) (k : IdentityKey) :
    copiesOf (taggedCopies level l) k
      = (l.filter fun rt => decide (keyAt level rt.1 = k)).map
          (fun rt => (rt.1.get_full_path, rt.2)) := by
  induction l with
  | nil => rfl
  | cons rt rest ih =>
    rw [taggedCopies, List.map_cons, copiesOf_cons, List.filter_cons]
    rw [taggedCopies] at ih
    by_cases h : keyAt level rt.1 = k <;> simp [h, ih]

/-- An element tagged with key `k` sits in a key-indexed `flatMap` exactly
when it sits in the bucket of `k`, provided every bucket only holds elements
of its own key. -/
theorem mem_flatMap_bucket {β : Type} (keys : List IdentityKey)
    (f : IdentityKey → List β) (keyOf : β → IdentityKey)
    (hf : ∀ k x, x ∈ f k → keyOf x = k) (x : β) :
    x ∈ keys.flatMap f ↔ keyOf x ∈ keys ∧ x ∈ f (keyOf x) := by
  simp only [List.mem_flatMap]
  constructor
  · rintro ⟨k', hk', hxk'⟩
    have hk : keyOf x = k' := hf k' x hxk'
    rw [hk]
    exact ⟨hk', hxk'⟩
  · rintro ⟨hk, hxk⟩
    exact ⟨keyOf x, hk, hxk⟩

/-- Membership in the path set of a record list. -/
theorem mem_pathsOf (l : List FileRecord) (p : String) :
    p ∈ pathsOf l ↔ ∃ r ∈ l, r.get_full_path = p := by
  simp [pathsOf, mem_dedupF, List.mem_map]

/-- A successful path lookup: when some record of `l` has path `p`, the
`find?` used by the classifier returns such a record. -/
theorem find?_path {l : List FileRecord} {p : String}
    (h : ∃ r ∈ l, r.get_full_path = p) :
    ∃ r, l.find? (fun r => decide (r.get_full_path = p)) = some r ∧
      r ∈ l ∧ r.get_full_path = p := by
  have hs : (l.find? fun r => decide (r.get_full_path = p)).isSome := by
    rw [List.find?_isSome]
    obtain ⟨r, hr, he⟩ := h
    exact ⟨r, hr, by simp [he]⟩
  obtain ⟨r, hfind⟩ := Option.isSome_iff_exists.mp hs
  refine ⟨r, hfind, List.mem_of_find?_eq_some hfind, ?_⟩
  have := List.find?_some hfind
  simpa using this

/-- Every unchanged pair consists of an inventory record and a target record
sitting at the same path. -/
theorem unchangedOf_mem {invR tgtR : List FileRecord} {pr : FileRecord × FileRecord}
    (h : pr ∈ unchangedOf invR tgtR) :
    pr.1 ∈ invR ∧ pr.2 ∈ tgtR ∧ pr.1.get_full_path = pr.2.get_full_path := by
  rw [unchangedOf, List.mem_filterMap] at h
  obtain ⟨p, hp, hf⟩ := h
  rcases hinv : invR.find? (fun r => decide (r.get_full_path = p)) with _ | ir <;>
    rcases htgt : tgtR.find? (fun r => decide (r.get_full_path = p)) with _ | tr <;>
    rw [hinv, htgt] at hf <;> simp at hf
  subst hf
  have h1 := List.find?_some hinv
  have h2 := List.find?_some htgt
  simp only [decide_eq_true_eq] at h1 h2
  exact ⟨List.mem_of_find?_eq_some hinv, List.mem_of_find?_eq_some htgt,
    by rw [h1, h2]⟩

/-- A path is carried by some unchanged pair exactly when both sides hold a
record at that path. -/
theorem unchangedOf_path_iff (invR tgtR : List FileRecord) (p : String) :
    (∃ pr ∈ unchangedOf invR tgtR, pr.1.get_full_path = p) ↔
      ((∃ r ∈ invR, r.get_full_path = p) ∧ (∃ r ∈ tgtR, r.get_full_path = p)) := by
  constructor
  · rintro ⟨pr, hpr, hpath⟩
    rw [unchangedOf, List.mem_filterMap] at hpr
    obtain ⟨p', hp', hf⟩ := hpr
    rcases hinv : invR.find? (fun r => decide (r.get_full_path = p')) with _ | ir <;>
      rcases htgt : tgtR.find? (fun r => decide (r.get_full_path = p')) with _ | tr <;>
      rw [hinv, htgt] at hf <;> simp at hf
    subst hf
    have h1 := List.find?_some hinv
    simp only [decide_eq_true_eq] at h1
    rw [List.mem_filter, decide_eq_true_eq] at hp'
    have hpp : p' = p := by rw [← h1, hpath]
    subst hpp
    exact ⟨(mem_pathsOf _ _).mp hp'.1, (mem_pathsOf _ _).mp hp'.2⟩
  · rintro ⟨hi, ht⟩
    have hpc : p ∈ (pathsOf invR).filter fun q => decide (q ∈ pathsOf tgtR) := by
      rw [List.mem_filter, decide_eq_true_eq]
      exact ⟨(mem_pathsOf _ _).mpr hi, (mem_pathsOf _ _).mpr ht⟩
    obtain ⟨ir, hirf, _, hirp⟩ := find?_path hi
    obtain ⟨tr, htrf, _, htrp⟩ := find?_path ht
    refine ⟨(ir, tr), ?_, hirp⟩
    rw [unchangedOf, List.mem_filterMap]
    exact ⟨p, hpc, by rw [hirf, htrf]⟩

/-- A path is a pending copy destination of one identity exactly when the
inventory demands it and the target lacks it. -/
theorem toCopyPathsOf_iff (invR tgtR : List FileRecord) (p : String) :
    p ∈ toCopyPathsOf invR tgtR ↔
      ((∃ r ∈ invR, r.get_full_path = p) ∧ ¬ ∃ r ∈ tgtR, r.get_full_path = p) := by
  rw [toCopyPathsOf, List.mem_filter, decide_eq_true_eq, mem_pathsOf, mem_pathsOf]

/-- Every extra record of an identity present on both sides is a target
record. -/
theorem extraRecsOf_mem {invR tgtR : List FileRecord} {r : FileRecord}
    (h : r ∈ extraRecsOf invR tgtR) : r ∈ tgtR := by
  rw [extraRecsOf, List.mem_filterMap] at h
  obtain ⟨p, _, hf⟩ := h
  exact List.mem_of_find?_eq_some hf

/-- A path is carried by some extra record of an identity present on both
sides exactly when the target holds it and the inventory does not demand
it. -/
theorem extraRecsOf_path_iff (invR tgtR : List FileRecord) (p : String) :
    (∃ r ∈ extraRecsOf invR tgtR, r.get_full_path = p) ↔
      ((∃ r ∈ tgtR, r.get_full_path = p) ∧ ¬ ∃ r ∈ invR, r.get_full_path = p) := by
  constructor
  · rintro ⟨r, hr, hpath⟩
    rw [extraRecsOf, List.mem_filterMap] at hr
    obtain ⟨p', hp', hf⟩ := hr
    have h1 := List.find?_some hf
    simp only [decide_eq_true_eq] at h1
    rw [List.mem_filter, decide_eq_true_eq] at hp'
    have hpp : p' = p := by rw [← h1, hpath]
    subst hpp
    exact ⟨(mem_pathsOf _ _).mp hp'.1, fun hc => hp'.2 ((mem_pathsOf _ _).mpr hc)⟩
  · rintro ⟨ht, hi⟩
    obtain ⟨r, hrf, hrm, hrp⟩ := find?_path ht
    refine ⟨r, ?_, hrp⟩
    rw [extraRecsOf, List.mem_filterMap]
    refine ⟨p, ?_, hrf⟩
    rw [List.mem_filter, decide_eq_true_eq]
    exact ⟨(mem_pathsOf _ _).mpr ht, fun hc => hi ((mem_pathsOf _ _).mp hc)⟩

/-- The four buckets of one identity partition its inventory and target
paths: coverage plus pairwise disjointness. -/
theorem classifyKey_partition (invR tgtR : List FileRecord) (p : String) :
    ((anyPath invR p ∨ anyPath tgtR p) ↔
      (anyPairPath (classifyKey invR tgtR).1 p ∨ anyDest (classifyKey invR tgtR).2.1 p ∨
       anyPath (classifyKey invR tgtR).2.2.1 p ∨ anyPath (classifyKey invR tgtR).2.2.2 p)) ∧
    ¬(anyPairPath (classifyKey invR tgtR).1 p ∧ anyDest (classifyKey invR tgtR).2.1 p) ∧
    ¬(anyPairPath (classifyKey invR tgtR).1 p ∧ anyPath (classifyKey invR tgtR).2.2.1 p) ∧
    ¬(anyPairPath (classifyKey invR tgtR).1 p ∧ anyPath (classifyKey invR tgtR).2.2.2 p) ∧
    ¬(anyDest (classifyKey invR tgtR).2.1 p ∧ anyPath (classifyKey invR tgtR).2.2.1 p) ∧
    ¬(anyDest (classifyKey invR tgtR).2.1 p ∧ anyPath (classifyKey invR tgtR).2.2.2 p) ∧
    ¬(anyPath (classifyKey invR tgtR).2.2.1 p ∧ anyPath (classifyKey invR tgtR).2.2.2 p) := by
  match invR, tgtR with
  | [], tgtR =>
    simp [classifyKey, anyPath, anyPairPath, anyDest]
  | i0 :: ir, [] =>
    simp [classifyKey, anyPath, anyPairPath, anyDest]
  | i0 :: ir, t0 :: tr =>
    have hA : anyPairPath (classifyKey (i0 :: ir) (t0 :: tr)).1 p ↔
        (anyPath (i0 :: ir) p ∧ anyPath (t0 :: tr) p) := by
      simpa [anyPairPath, anyPath, classifyKey] using
        unchangedOf_path_iff (i0 :: ir) (t0 :: tr) p
    have hB : anyDest (classifyKey (i0 :: ir) (t0 :: tr)).2.1 p ↔
        (anyPath (i0 :: ir) p ∧ ¬ anyPath (t0 :: tr) p) := by
      have := toCopyPathsOf_iff (i0 :: ir) (t0 :: tr) p
      simp only [classifyKey, anyDest, anyPath, List.mem_map] at this ⊢
      constructor
      · rintro ⟨st, ⟨q, hq, rfl⟩, hp⟩
        simp only at hp
        subst hp
        exact this.mp hq
      · intro h
        exact ⟨(t0, p), ⟨p, this.mpr h, rfl⟩, rfl⟩
    have hC : anyPath (classifyKey (i0 :: ir) (t0 :: tr)).2.2.1 p ↔ False := by
      simp [classifyKey, anyPath]
    have hD : anyPath (classifyKey (i0 :: ir) (t0 :: tr)).2.2.2 p ↔
        (anyPath (t0 :: tr) p ∧ ¬ anyPath (i0 :: ir) p) := by
      simpa [anyPath, classifyKey] using
        extraRecsOf_path_iff (i0 :: ir) (t0 :: tr) p
    rw [hA, hB, hC, hD]
    by_cases hI : anyPath (i0 :: ir) p <;> by_cases hT : anyPath (t0 :: tr) p <;>
      simp [hI, hT]

/-- Unchanged pairs always take their inventory record from the identity's
inventory bucket. -/
theorem classifyKey_unch_inv {invR tgtR : List FileRecord} {pr : FileRecord × FileRecord}
    (h : pr ∈ (classifyKey invR tgtR).1) : pr.1 ∈ invR := by
  match invR, tgtR with
  | [], tgtR => simp [classifyKey] at h
  | i0 :: ir, [] => simp [classifyKey] at h
  | i0 :: ir, t0 :: tr => exact (unchangedOf_mem h).1

/-- Pending copies always take their source record from the identity's target
bucket. -/
theorem classifyKey_copy_src {invR tgtR : List FileRecord} {st : FileRecord × String}
    (h : st ∈ (classifyKey invR tgtR).2.1) : st.1 ∈ tgtR := by
  match invR, tgtR with
  | [], tgtR => simp [classifyKey] at h
  | i0 :: ir, [] => simp [classifyKey] at h
  | i0 :: ir, t0 :: tr =>
    simp only [classifyKey, List.mem_map] at h
    obtain ⟨q, _, rfl⟩ := h
    exact List.mem_cons_self t0 tr

/-- Missing records always come from the identity's inventory bucket. -/
theorem classifyKey_missing_mem {invR tgtR : List FileRecord} {r : FileRecord}
    (h : r ∈ (classifyKey invR tgtR).2.2.1) : r ∈ invR := by
  match invR, tgtR with
  | [], tgtR => simp [classifyKey] at h
  | i0 :: ir, [] => simpa [classifyKey] using h
  | i0 :: ir, t0 :: tr => simp [classifyKey] at h

/-- Extra records always come from the identity's target bucket. -/
theorem classifyKey_extra_mem {invR tgtR : List FileRecord} {r : FileRecord}
    (h : r ∈ (classifyKey invR tgtR).2.2.2) : r ∈ tgtR := by
  match invR, tgtR with
  | [], tgtR => simpa [classifyKey] using h
  | i0 :: ir, [] => simp [classifyKey] at h
  | i0 :: ir, t0 :: tr => exact extraRecsOf_mem h

/-- A keyed existence over a key-indexed `flatMap` reduces to the single
bucket of that key, provided buckets only hold elements of their own key. -/
theorem exists_flatMap_key {β : Type} (keys : List IdentityKey)
    (f : IdentityKey → List β) (keyOf : β → IdentityKey) (Q : β → Prop)
    (hf : ∀ k x, x ∈ f k → keyOf x = k) (k : IdentityKey) :
    (∃ x ∈ keys.flatMap f, keyOf x = k ∧ Q x) ↔ (k ∈ keys ∧ ∃ x ∈ f k, Q x) := by
  constructor
  · rintro ⟨x, hx, hk, hq⟩
    rw [mem_flatMap_bucket keys f keyOf hf] at hx
    rw [hk] at hx
    exact ⟨hx.1, x, hx.2, hq⟩
  · rintro ⟨hk, x, hx, hq⟩
    refine ⟨x, ?_, hf k x hx, hq⟩
    rw [mem_flatMap_bucket keys f keyOf hf, hf k x hx]
    exact ⟨hk, hx⟩

/-- On a valid level, classification never raises and reduces to the
key-indexed core over the tagged record lists. -/
theorem classify_files_valid (inv tgt : List FileRecord) (level : Nat)
    (hl : level = 1 ∨ level = 2 ∨ level = 3) :
    classify_files inv tgt level =
      some (classifyKeyed (tagged level inv) (tagged level tgt)) := by
  simp [classify_files, keyAll_valid level hl]

/-- Records grouped under key `k` all carry key `k`. -/
theorem recsOf_map_key {level : Nat} {l : List FileRecord} {k : IdentityKey}
    {r : FileRecord} (h : r ∈ recsOf (tagged level l) k) :
    keyAt level r = k := by
  rw [recsOf_map] at h
  rw [List.mem_filter, decide_eq_true_eq] at h
  exact h.2

/-- A keyed path existence over a record list reduces to a plain path
existence over that key's group. -/
theorem keyPath_filter (level : Nat) (hl : level = 1 ∨ level = 2 ∨ level = 3)
    (l : List FileRecord) (k : IdentityKey) (p : String) :
    keyPath level l k p ↔ anyPath (recsOf (tagged level l) k) p := by
  rw [recsOf_map]
  simp only [keyPath, anyPath, List.mem_filter, decide_eq_true_eq,
    get_identity_key_valid _ level hl, Option.some.injEq]
  constructor
  · rintro ⟨r, hr, hk, hp⟩
    exact ⟨r, ⟨hr, hk⟩, hp⟩
  · rintro ⟨r, ⟨hr, hk⟩, hp⟩
    exact ⟨r, hr, hk, hp⟩

/-- Unfolded first component of `classifyKeyed`. -/
theorem classifyKeyed_fst (invK tgtK : List (IdentityKey × FileRecord)) :
    (classifyKeyed invK tgtK).1 =
      (dedupF (invK.map Prod.fst ++ tgtK.map Prod.fst)).flatMap
        (fun k => (classifyKey (recsOf invK k) (recsOf tgtK k)).1) := rfl

/-- Unfolded toCopy component of `classifyKeyed`. -/
theorem classifyKeyed_copy (invK tgtK : List (IdentityKey × FileRecord)) :
    (classifyKeyed invK tgtK).2.1 =
      (dedupF (invK.map Prod.fst ++ tgtK.map Prod.fst)).flatMap
        (fun k => (classifyKey (recsOf invK k) (recsOf tgtK k)).2.1) := rfl

/-- Unfolded missing component of `classifyKeyed`. -/
theorem classifyKeyed_missing (invK tgtK : List (IdentityKey × FileRecord)) :
    (classifyKeyed invK tgtK).2.2.1 =
      (dedupF (invK.map Prod.fst ++ tgtK.map Prod.fst)).flatMap
        (fun k => (classifyKey (recsOf invK k) (recsOf tgtK k)).2.2.1) := rfl

/-- Unfolded extra component of `classifyKeyed`. -/
theorem classifyKeyed_extra (invK tgtK : List (IdentityKey × FileRecord)) :
    (classifyKeyed invK tgtK).2.2.2 =
      (dedupF (invK.map Prod.fst ++ tgtK.map Prod.fst)).flatMap
        (fun k => (classifyKey (recsOf invK k) (recsOf tgtK k)).2.2.2) := rfl

/-- The key list of the classifier loop contains exactly the keys realised by
some inventory or target record. -/
theorem mem_keys_tagged (level : Nat) (inv tgt : List FileRecord) (k : IdentityKey) :
    k ∈ dedupF ((tagged level inv).map Prod.fst ++ (tagged level tgt).map Prod.fst) ↔
      ((∃ r ∈ inv, keyAt level r = k) ∨ (∃ r ∈ tgt, keyAt level r = k)) := by
  simp [mem_dedupF, tagged, List.mem_append, List.mem_map]

/-- C1 main statement: on a valid level, classification of well-formed
in-memory record lists never fails, and per identity key the inventory and
target paths of that identity are covered by the four outputs with pairwise
disjointness — a total partition. -/
theorem classify_files_total_partition (inv tgt : List FileRecord) (level : Nat)
    (hl : level = 1 ∨ level = 2 ∨ level = 3) :
    ∃ u c m e, classify_files inv tgt level = some (u, c, m, e) ∧
      ∀ k p,
        ((keyPath level inv k p ∨ keyPath level tgt k p) ↔
          (keyPairPath level u k p ∨ keyDest level c k p ∨
           keyPath level m k p ∨ keyPath level e k p)) ∧
        ¬(keyPairPath level u k p ∧ keyDest level c k p) ∧
        ¬(keyPairPath level u k p ∧ keyPath level m k p) ∧
        ¬(keyPairPath level u k p ∧ keyPath level e k p) ∧
        ¬(keyDest level c k p ∧ keyPath level m k p) ∧
        ¬(keyDest level c k p ∧ keyPath level e k p) ∧
        ¬(keyPath level m k p ∧ keyPath level e k p) := by
  refine ⟨(classifyKeyed (tagged level inv) (tagged level tgt)).1,
    (classifyKeyed (tagged level inv) (tagged level tgt)).2.1,
    (classifyKeyed (tagged level inv) (tagged level tgt)).2.2.1,
    (classifyKeyed (tagged level inv) (tagged level tgt)).2.2.2, ?_, ?_⟩
  · rw [classify_files_valid inv tgt level hl]
  intro k p
  rw [classifyKeyed_fst, classifyKeyed_copy, classifyKeyed_missing, classifyKeyed_extra]
  have hgk : ∀ r : FileRecord, r.get_identity_key level = some (keyAt level r) :=
    fun r => get_identity_key_valid r level hl
  have hU : keyPairPath level
      ((dedupF ((tagged level inv).map Prod.fst ++ (tagged level tgt).map Prod.fst)).flatMap
        (fun k' => (classifyKey (recsOf (tagged level inv) k') (recsOf (tagged level tgt) k')).1))
      k p ↔
      (k ∈ dedupF ((tagged level inv).map Prod.fst ++ (tagged level tgt).map Prod.fst) ∧
        anyPairPath (classifyKey (recsOf (tagged level inv) k) (recsOf (tagged level tgt) k)).1 p) := by
    have hf : ∀ k' (pr : FileRecord × FileRecord),
        pr ∈ (classifyKey (recsOf (tagged level inv) k') (recsOf (tagged level tgt) k')).1 →
          keyAt level pr.1 = k' :=
      fun k' pr h => recsOf_map_key (classifyKey_unch_inv h)
    have := exists_flatMap_key
      (dedupF ((tagged level inv).map Prod.fst ++ (tagged level tgt).map Prod.fst))
      (fun k' => (classifyKey (recsOf (tagged level inv) k') (recsOf (tagged level tgt) k')).1)
      (fun pr => keyAt level pr.1) (fun pr => pr.1.get_full_path = p) hf k
    simp only [keyPairPath, anyPairPath, hgk, Option.some.injEq]
    exact this
  have hCc : keyDest level
      ((dedupF ((tagged level inv).map Prod.fst ++ (tagged level tgt).map Prod.fst)).flatMap
        (fun k' => (classifyKey (recsOf (tagged level inv) k') (recsOf (tagged level tgt) k')).2.1))
      k p ↔
      (k ∈ dedupF ((tagged level inv).map Prod.fst ++ (tagged level tgt).map Prod.fst) ∧
        anyDest (classifyKey (recsOf (tagged level inv) k) (recsOf (tagged level tgt) k)).2.1 p) := by
    have hf : ∀ k' (st : FileRecord × String),
        st ∈ (classifyKey (recsOf (tagged level inv) k') (recsOf (tagged level tgt) k')).2.1 →
          keyAt level st.1 = k' :=
      fun k' st h => recsOf_map_key (classifyKey_copy_src h)
    have := exists_flatMap_key
      (dedupF ((tagged level inv).map Prod.fst ++ (tagged level tgt).map Prod.fst))
      (fun k' => (classifyKey (recsOf (tagged level inv) k') (recsOf (tagged level tgt) k')).2.1)
      (fun st => keyAt level st.1) (fun st => st.2 = p) hf k
    simp only [keyDest, anyDest, hgk, Option.some.injEq]
    exact this
  have hM : keyPath level
      ((dedupF ((tagged level inv).map Prod.fst ++ (tagged level tgt).map Prod.fst)).flatMap
        (fun k' => (classifyKey (recsOf (tagged level inv) k') (recsOf (tagged level tgt) k')).2.2.1))
      k p ↔
      (k ∈ dedupF ((tagged level inv).map Prod.fst ++ (tagged level tgt).map Prod.fst) ∧
        anyPath (classifyKey (recsOf (tagged level inv) k) (recsOf (tagged level tgt) k)).2.2.1 p) := by
    have hf : ∀ k' (r : FileRecord),
        r ∈ (classifyKey (recsOf (tagged level inv) k') (recsOf (tagged level tgt) k')).2.2.1 →
          keyAt level r = k' :=
      fun k' r h => recsOf_map_key (classifyKey_missing_mem h)
    have := exists_flatMap_key
      (dedupF ((tagged level inv).map Prod.fst ++ (tagged level tgt).map Prod.fst))
      (fun k' => (classifyKey (recsOf (tagged level inv) k') (recsOf (tagged level tgt) k')).2.2.1)
      (fun r => keyAt level r) (fun r => r.get_full_path = p) hf k
    simp only [keyPath, anyPath, hgk, Option.some.injEq]
    exact this
  have hE : keyPath level
      ((dedupF ((tagged level inv).map Prod.fst ++ (tagged level tgt).map Prod.fst)).flatMap
        (fun k' => (classifyKey (recsOf (tagged level inv) k') (recsOf (tagged level tgt) k')).2.2.2))
      k p ↔
      (k ∈ dedupF ((tagged level inv).map Prod.fst ++ (tagged level tgt).map Prod.fst) ∧
        anyPath (classifyKey (recsOf (tagged level inv) k) (recsOf (tagged level tgt) k)).2.2.2 p) := by
    have hf : ∀ k' (r : FileRecord),
        r ∈ (classifyKey (recsOf (tagged level inv) k') (recsOf (tagged level tgt) k')).2.2.2 →
          keyAt level r = k' :=
      fun k' r h => recsOf_map_key (classifyKey_extra_mem h)
    have := exists_flatMap_key
      (dedupF ((tagged level inv).map Prod.fst ++ (tagged level tgt).map Prod.fst))
      (fun k' => (classifyKey (recsOf (tagged level inv) k') (recsOf (tagged level tgt) k')).2.2.2)
      (fun r => keyAt level r) (fun r => r.get_full_path = p) hf k
    simp only [keyPath, anyPath, hgk, Option.some.injEq]
    exact this
  have hI := keyPath_filter level hl inv k p
  have hT := keyPath_filter level hl tgt k p
  have hIk : anyPath (recsOf (tagged level inv) k) p →
      k ∈ dedupF ((tagged level inv).map Prod.fst ++ (tagged level tgt).map Prod.fst) := by
    rintro ⟨r, hr, _⟩
    rw [mem_keys_tagged]
    rw [recsOf_map] at hr
    rw [List.mem_filter, decide_eq_true_eq] at hr
    exact Or.inl ⟨r, hr.1, hr.2⟩
  have hTk : anyPath (recsOf (tagged level tgt) k) p →
      k ∈ dedupF ((tagged level inv).map Prod.fst ++ (tagged level tgt).map Prod.fst) := by
    rintro ⟨r, hr, _⟩
    rw [mem_keys_tagged]
    rw [recsOf_map] at hr
    rw [List.mem_filter, decide_eq_true_eq] at hr
    exact Or.inr ⟨r, hr.1, hr.2⟩
  rw [hU, hCc, hM, hE, hI, hT]
  have hpart := classifyKey_partition (recsOf (tagged level inv) k) (recsOf (tagged level tgt) k) p
  by_cases hk : k ∈ dedupF ((tagged level inv).map Prod.fst ++ (tagged level tgt).map Prod.fst)
  · simp only [hk, true_and]
    exact hpart
  · simp only [hk, false_and, and_false, not_false_iff, and_true, true_and]
    constructor
    · rintro (h | h)
      · exact absurd (hIk h) hk
      · exact absurd (hTk h) hk
    · rintro (h | h | h | h) <;> exact h.elim

/-- Witness for the partition theorem at a concrete level-1 input: one
demanded root file against one relocated target file. -/
theorem classify_files_total_partition_witness :
    (1 = 1 ∨ 1 = 2 ∨ 1 = 3) ∧
    (∃ u c m e,
      classify_files [⟨"", "a.txt", 3, none, none⟩] [⟨"old", "a.txt", 3, none, none⟩] 1 =
        some (u, c, m, e) ∧
      ∀ k p,
        ((keyPath 1 [⟨"", "a.txt", 3, none, none⟩] k p ∨
          keyPath 1 [⟨"old", "a.txt", 3, none, none⟩] k p) ↔
          (keyPairPath 1 u k p ∨ keyDest 1 c k p ∨
           keyPath 1 m k p ∨ keyPath 1 e k p)) ∧
        ¬(keyPairPath 1 u k p ∧ keyDest 1 c k p) ∧
        ¬(keyPairPath 1 u k p ∧ keyPath 1 m k p) ∧
        ¬(keyPairPath 1 u k p ∧ keyPath 1 e k p) ∧
        ¬(keyDest 1 c k p ∧ keyPath 1 m k p) ∧
        ¬(keyDest 1 c k p ∧ keyPath 1 e k p) ∧
        ¬(keyPath 1 m k p ∧ keyPath 1 e k p)) :=
  ⟨Or.inl rfl,
    classify_files_total_partition [⟨"", "a.txt", 3, none, none⟩]
      [⟨"old", "a.txt", 3, none, none⟩] 1 (Or.inl rfl)⟩

/-- Scanning for the first index outside `range m` from position `i ≤ m`
finds index `m` exactly when the path list reaches that far. -/
theorem firstUnused_range (dps : List String) :
    ∀ i m : Nat, i ≤ m →
      firstUnused dps i (List.range m) = (dps.drop (m - i)).head?.map (fun p => (m, p)) := by
  induction dps with
  | nil => intro i m _; simp [firstUnused]
  | cons p rest ih =>
    intro i m h
    rw [firstUnused]
    by_cases hi : i ∈ List.range m
    · rw [if_pos hi]
      rw [List.mem_range] at hi
      rw [ih (i + 1) m (Nat.succ_le_of_lt hi)]
      have hsub : m - i = (m - (i + 1)) + 1 := by omega
      rw [hsub, List.drop_succ_cons]
    · rw [if_neg hi]
      rw [List.mem_range] at hi
      have : m = i := by omega
      subst this
      simp

/-- Past index `m`, the surviving-delete scan keeps every record. -/
theorem remDeletes_ge (m : Nat) : ∀ (l : List FileRecord) (i : Nat), m ≤ i →
    remDeletes (List.range m) i l = l := by
  intro l
  induction l with
  | nil => intro i _; rfl
  | cons r rest ih =>
    intro i h
    rw [remDeletes]
    rw [if_neg (by rw [List.mem_range]; omega)]
    rw [ih (i + 1) (by omega)]

/-- With the consumed indices forming `range m`, the surviving deletes are
the records past position `m`. -/
theorem remDeletes_range (m : Nat) : ∀ (l : List FileRecord) (i : Nat), i ≤ m →
    remDeletes (List.range m) i l = l.drop (m - i) := by
  intro l
  induction l with
  | nil => intro i _; simp [remDeletes]
  | cons r rest ih =>
    intro i h
    rw [remDeletes]
    by_cases hi : i ∈ List.range m
    · rw [if_pos hi]
      rw [List.mem_range] at hi
      rw [ih (i + 1) (by omega)]
      have hsub : m - i = (m - (i + 1)) + 1 := by omega
      rw [hsub, List.drop_succ_cons]
    · rw [if_neg hi]
      rw [List.mem_range] at hi
      have : m = i := by omega
      subst this
      rw [remDeletes_ge _ _ _ (by omega)]
      simp

/-- Second projections of a zip: the second list, truncated to the first
list's length. -/
theorem zip_map_snd {α β : Type} (l₁ : List α) :
    ∀ l₂ : List β, (l₁.zip l₂).map Prod.snd = l₂.take l₁.length := by
  induction l₁ with
  | nil => intro l₂; simp
  | cons a l ih => intro l₂; cases l₂ <;> simp [ih]

/-- First projections of a zip: the first list, truncated to the second
list's length. -/
theorem zip_map_fst {α β : Type} (l₁ : List α) :
    ∀ l₂ : List β, (l₁.zip l₂).map Prod.fst = l₁.take l₂.length := by
  induction l₁ with
  | nil => intro l₂; simp
  | cons a l ih => intro l₂; cases l₂ <;> simp [ih]

/-- Taking `n` elements is taking `min n length` elements. -/
theorem take_min {α : Type} (l : List α) (n : Nat) :
    l.take n = l.take (min n l.length) := by
  rcases le_total n l.length with h | h
  · rw [Nat.min_eq_left h]
  · rw [Nat.min_eq_right h, List.take_of_length_le h, List.take_length]


/-- Generalized run of the per-identity pairing loop: starting with the
consumed-index set `range m`, the loop zips the remaining delete paths with
the incoming copy destinations and sends the overflow copies through the
original-source lookup. -/
theorem optKeyLoop_go (tc : List (FileRecord × String)) (dps : List String) :
    ∀ (ops : List (String × String)) (m : Nat), m ≤ dps.length →
      ∀ (A : List (String × String)) (B : List (FileRecord × String)),
      optKeyLoop tc dps ops ⟨List.range m, A, B⟩ =
        ⟨List.range (min (m + ops.length) dps.length),
         A ++ (dps.drop m).zip (ops.map Prod.snd),
         B ++ (ops.drop (dps.length - m)).filterMap (lkup tc)⟩ := by
  intro ops
  induction ops with
  | nil =>
    intro m hm A B
    simp [optKeyLoop, Nat.min_eq_left hm]
  | cons op rest ih =>
    intro m hm A B
    obtain ⟨sp, tp⟩ := op
    rw [optKeyLoop]
    rw [firstUnused_range dps 0 m (Nat.zero_le m)]
    rw [Nat.sub_zero]
    by_cases hlt : m < dps.length
    · rw [List.drop_eq_getElem_cons hlt]
      rw [List.head?_cons, Option.map_some']
      dsimp only
      have hrange : List.range m ++ [m] = List.range (m + 1) := (List.range_succ m).symm
      rw [hrange]
      rw [ih (m + 1) hlt (A ++ [(dps[m], tp)]) B]
      have h1 : min (m + 1 + rest.length) dps.length =
          min (m + ((sp, tp) :: rest).length) dps.length := by
        rw [List.length_cons]
        omega
      have h2 : A ++ [(dps[m], tp)] ++ (dps.drop (m + 1)).zip (rest.map Prod.snd) =
          A ++ (dps[m] :: dps.drop (m + 1)).zip (((sp, tp) :: rest).map Prod.snd) := by
        rw [List.map_cons, List.zip_cons_cons, List.append_assoc, List.singleton_append]
      have h3 : rest.drop (dps.length - (m + 1)) = ((sp, tp) :: rest).drop (dps.length - m) := by
        have hs : dps.length - m = (dps.length - (m + 1)) + 1 := by omega
        rw [hs, List.drop_succ_cons]
      rw [h1, h2, h3]
    · have hmeq : m = dps.length := by omega
      subst hmeq
      have hd : dps.drop dps.length = [] := List.drop_eq_nil_of_le (le_refl _)
      rw [hd, List.head?_nil, Option.map_none']
      dsimp only
      rcases hf : tc.find? (fun rt => decide (rt.1.get_full_path = sp ∧ rt.2 = tp)) with _ | rt <;>
        rw [hf] <;> dsimp only
      · rw [ih dps.length (le_refl _) A B]
        have h1 : min (dps.length + rest.length) dps.length =
            min (dps.length + ((sp, tp) :: rest).length) dps.length := by
          rw [List.length_cons]
          omega
        have h3 : (rest.drop (dps.length - dps.length)).filterMap (lkup tc) =
            (((sp, tp) :: rest).drop (dps.length - dps.length)).filterMap (lkup tc) := by
          rw [Nat.sub_self, List.drop_zero, List.drop_zero]
          rw [List.filterMap_cons_none (show lkup tc (sp, tp) = none by
            unfold lkup
            dsimp only
            rw [hf]
            rfl)]
        rw [h1, h3, hd]
        simp
      · rw [ih dps.length (le_refl _) A (B ++ [(rt.1, tp)])]
        have h1 : min (dps.length + rest.length) dps.length =
            min (dps.length + ((sp, tp) :: rest).length) dps.length := by
          rw [List.length_cons]
          omega
        have h3 : B ++ [(rt.1, tp)] ++ (rest.drop (dps.length - dps.length)).filterMap (lkup tc) =
            B ++ ((((sp, tp) :: rest).drop (dps.length - dps.length)).filterMap (lkup tc)) := by
          rw [Nat.sub_self, List.drop_zero, List.drop_zero]
          rw [List.filterMap_cons_some (show lkup tc (sp, tp) = some (rt.1, tp) by
            unfold lkup
            dsimp only
            rw [hf]
            rfl)]
          rw [List.append_assoc, List.singleton_append]
        rw [h1, h3, hd]
        simp

/-- The per-identity pairing loop from the empty state: moves are the zip of
delete paths with copy destinations, overflow copies go through the
original-source lookup, and the consumed indices form a prefix. -/
theorem optKeyLoop_spec (tc : List (FileRecord × String)) (dps : List String)
    (ops : List (String × String)) :
    optKeyLoop tc dps ops ⟨[], [], []⟩ =
      ⟨List.range (min ops.length dps.length),
       dps.zip (ops.map Prod.snd),
       (ops.drop dps.length).filterMap (lkup tc)⟩ := by
  have h := optKeyLoop_go tc dps ops 0 (Nat.zero_le _) [] []
  simpa using h

/-- When every copy operation has a preimage in `to_copy`, the lookup-based
surviving copies keep exactly the incoming destinations. -/
theorem filterMap_lkup_map_snd (tc : List (FileRecord × String)) :
    ∀ ops : List (String × String),
      (∀ op ∈ ops, ∃ rt ∈ tc, rt.1.get_full_path = op.1 ∧ rt.2 = op.2) →
      (ops.filterMap (lkup tc)).map Prod.snd = ops.map Prod.snd := by
  intro ops
  induction ops with
  | nil => intro _; rfl
  | cons op rest ih =>
    intro h
    have hop := h op (List.mem_cons_self op rest)
    have hs : (tc.find? fun rt => decide (rt.1.get_full_path = op.1 ∧ rt.2 = op.2)).isSome := by
      rw [List.find?_isSome]
      obtain ⟨rt, hrt, h1, h2⟩ := hop
      exact ⟨rt, hrt, by simp [h1, h2]⟩
    obtain ⟨rt, hrt⟩ := Option.isSome_iff_exists.mp hs
    have hlk : lkup tc op = some (rt.1, op.2) := by
      unfold lkup
      rw [hrt]
      rfl
    rw [List.filterMap_cons_some hlk, List.map_cons, List.map_cons]
    rw [ih (fun op' h' => h op' (List.mem_cons_of_mem _ h'))]

/-- One identity's slice of the optimizer on tagged inputs, in closed form:
moves zip the identity's delete paths with its copy destinations, surviving
copies are the overflow destinations run through the lookup, and surviving
deletes are the overflow delete records. -/
theorem optKeyAt_valid (level : Nat) (to_copy : List (FileRecord × String))
    (extra : List FileRecord) (k : IdentityKey) :
    optKeyAt to_copy (taggedCopies level to_copy) (tagged level extra) k =
      (⟨List.range (min (copyDestsAt level to_copy k).length (delPathsAt level extra k).length),
        (delPathsAt level extra k).zip (copyDestsAt level to_copy k),
        (((to_copy.filter fun rt => decide (keyAt level rt.1 = k)).map
            fun rt => (rt.1.get_full_path, rt.2)).drop
          (delPathsAt level extra k).length).filterMap (lkup to_copy)⟩,
       (extra.filter fun r => decide (keyAt level r = k)).drop
         (min (copyDestsAt level to_copy k).length (delPathsAt level extra k).length)) := by
  have hsnd : (((to_copy.filter fun rt => decide (keyAt level rt.1 = k)).map
      fun rt => (rt.1.get_full_path, rt.2)).map Prod.snd) = copyDestsAt level to_copy k := by
    rw [List.map_map]
    rfl
  have hlen : ((to_copy.filter fun rt => decide (keyAt level rt.1 = k)).map
      fun rt => (rt.1.get_full_path, rt.2)).length = (copyDestsAt level to_copy k).length := by
    rw [← hsnd, List.length_map, List.length_map, List.length_map]
  have hdel : ((extra.filter fun r => decide (keyAt level r = k)).map
      FileRecord.get_full_path) = delPathsAt level extra k := rfl
  simp only [optKeyAt]
  rw [copiesOf_map, recsOf_map]
  rw [hdel]
  rw [optKeyLoop_spec]
  dsimp only
  rw [hsnd, hlen]
  rw [remDeletes_range _ _ 0 (Nat.zero_le _), Nat.sub_zero]

/-- Per-identity moves of the optimizer on tagged inputs. -/
theorem optKeyAt_mvs (level : Nat) (to_copy : List (FileRecord × String))
    (extra : List FileRecord) (k : IdentityKey) :
    (optKeyAt to_copy (taggedCopies level to_copy) (tagged level extra) k).1.mvs =
      (delPathsAt level extra k).zip (copyDestsAt level to_copy k) := by
  rw [optKeyAt_valid]

/-- Per-identity copy conservation: the surviving copies' destinations are
exactly the copy destinations not absorbed into moves. -/
theorem optKeyAt_remCp_snd (level : Nat) (to_copy : List (FileRecord × String))
    (extra : List FileRecord) (k : IdentityKey) :
    ((optKeyAt to_copy (taggedCopies level to_copy) (tagged level extra) k).1.remCp).map
        Prod.snd =
      (copyDestsAt level to_copy k).drop (delPathsAt level extra k).length := by
  rw [optKeyAt_valid]
  dsimp only
  rw [filterMap_lkup_map_snd]
  · rw [List.map_drop, List.map_map]
    rfl
  · intro op hop
    have hop' := List.mem_of_mem_drop hop
    rw [List.mem_map] at hop'
    obtain ⟨rt, hrt, rfl⟩ := hop'
    rw [List.mem_filter] at hrt
    exact ⟨rt, hrt.1, rfl, rfl⟩

/-- Per-identity surviving deletes of the optimizer on tagged inputs. -/
theorem optKeyAt_rm (level : Nat) (to_copy : List (FileRecord × String))
    (extra : List FileRecord) (k : IdentityKey) :
    (optKeyAt to_copy (taggedCopies level to_copy) (tagged level extra) k).2 =
      (extra.filter fun r => decide (keyAt level r = k)).drop
        (min (copyDestsAt level to_copy k).length (delPathsAt level extra k).length) := by
  rw [optKeyAt_valid]

/-- Per-identity copy conservation: moves' destinations then surviving
copies' destinations recover all copy destinations of the identity. -/
theorem optKeyAt_copy_conserve (level : Nat) (to_copy : List (FileRecord × String))
    (extra : List FileRecord) (k : IdentityKey) :
    ((optKeyAt to_copy (taggedCopies level to_copy) (tagged level extra) k).1.mvs).map Prod.snd
      ++ ((optKeyAt to_copy (taggedCopies level to_copy) (tagged level extra) k).1.remCp).map
        Prod.snd
      = copyDestsAt level to_copy k := by
  rw [optKeyAt_mvs, optKeyAt_remCp_snd, zip_map_snd]
  exact List.take_append_drop _ _

/-- Per-identity delete conservation: moves' sources then surviving deletes'
paths recover all delete paths of the identity. -/
theorem optKeyAt_del_conserve (level : Nat) (to_copy : List (FileRecord × String))
    (extra : List FileRecord) (k : IdentityKey) :
    ((optKeyAt to_copy (taggedCopies level to_copy) (tagged level extra) k).1.mvs).map Prod.fst
      ++ ((optKeyAt to_copy (taggedCopies level to_copy) (tagged level extra) k).2).map
        FileRecord.get_full_path
      = delPathsAt level extra k := by
  rw [optKeyAt_mvs, optKeyAt_rm, zip_map_fst]
  rw [List.map_drop]
  rw [show ((extra.filter fun r => decide (keyAt level r = k)).map FileRecord.get_full_path)
    = delPathsAt level extra k from rfl]
  rw [take_min (delPathsAt level extra k) (copyDestsAt level to_copy k).length]
  exact List.take_append_drop _ _

/-- Interleaved per-key chunks are a permutation of the separated chunks. -/
theorem flatMap_append_perm {α β : Type} (l : List α) (f g : α → List β) :
    List.Perm (l.flatMap fun a => f a ++ g a) (l.flatMap f ++ l.flatMap g) := by
  induction l with
  | nil => simp
  | cons a l ih =>
    simp only [List.flatMap_cons]
    refine (List.Perm.append_left (f a ++ g a) ih).trans ?_
    rw [List.append_assoc, List.append_assoc]
    refine List.Perm.append_left (f a) ?_
    rw [← List.append_assoc, ← List.append_assoc]
    exact List.Perm.append_right _ List.perm_append_comm

/-- Filtering a list by each key of a duplicate-free covering key list and
concatenating recovers the list up to permutation. -/
theorem flatMap_filter_perm {α κ : Type} [DecidableEq κ] (keyOf : α → κ) :
    ∀ (keys : List κ) (l : List α), keys.Nodup → (∀ a ∈ l, keyOf a ∈ keys) →
      List.Perm (keys.flatMap fun k => l.filter fun a => decide (keyOf a = k)) l := by
  intro keys
  induction keys with
  | nil =>
    intro l _ hc
    have hl : l = [] := by
      cases l with
      | nil => rfl
      | cons a l => exact absurd (hc a (List.mem_cons_self a l)) (by simp)
    subst hl
    simp
  | cons k ks ih =>
    intro l hnd hc
    rw [List.flatMap_cons]
    have hkns : k ∉ ks := (List.nodup_cons.mp hnd).1
    have hbucket : ∀ k' ∈ ks, l.filter (fun a => decide (keyOf a = k')) =
        (l.filter fun a => !decide (keyOf a = k)).filter fun a => decide (keyOf a = k') := by
      intro k' hk'
      rw [List.filter_filter]
      apply List.filter_congr
      intro a _
      have hne : k' ≠ k := fun hkk => hkns (hkk ▸ hk')
      by_cases h : keyOf a = k'
      · simp [h, hne]
      · simp [h]
    have hcong : (ks.flatMap fun k' => l.filter fun a => decide (keyOf a = k')) =
        ks.flatMap fun k' =>
          (l.filter fun a => !decide (keyOf a = k)).filter fun a => decide (keyOf a = k') :=
      List.flatMap_congr hbucket
    rw [hcong]
    have hcover : ∀ a ∈ l.filter fun a => !decide (keyOf a = k), keyOf a ∈ ks := by
      intro a ha
      rw [List.mem_filter] at ha
      have hmem := hc a ha.1
      rw [List.mem_cons] at hmem
      rcases hmem with h | h
      · have hna : ¬(keyOf a = k) := by simpa using ha.2
        exact absurd h hna
      · exact h
    have hperm := ih (l.filter fun a => !decide (keyOf a = k)) (List.nodup_cons.mp hnd).2 hcover
    exact (List.Perm.append_left _ hperm).trans (List.filter_append_perm _ l)

/-- On a valid level, the optimizer never raises and reduces to the
key-indexed core over the tagged inputs. -/
theorem optimize_commands_valid (to_copy : List (FileRecord × String))
    (extra : List FileRecord) (level : Nat) (hl : level = 1 ∨ level = 2 ∨ level = 3) :
    optimize_commands to_copy extra level =
      some (optimizeKeyed to_copy (taggedCopies level to_copy) (tagged level extra)) := by
  simp [optimize_commands, keyCopies_valid level hl, keyAll_valid level hl]

/-- Unfolded moves component of `optimizeKeyed`. -/
theorem optimizeKeyed_mvs (to_copy : List (FileRecord × String))
    (copyK : List (IdentityKey × String × String))
    (delK : List (IdentityKey × FileRecord)) :
    (optimizeKeyed to_copy copyK delK).1 =
      (dedupF (copyK.map Prod.fst ++ delK.map Prod.fst)).flatMap
        (fun k => (optKeyAt to_copy copyK delK k).1.mvs) := rfl

/-- Unfolded surviving-copy component of `optimizeKeyed`. -/
theorem optimizeKeyed_rcp (to_copy : List (FileRecord × String))
    (copyK : List (IdentityKey × String × String))
    (delK : List (IdentityKey × FileRecord)) :
    (optimizeKeyed to_copy copyK delK).2.1 =
      (dedupF (copyK.map Prod.fst ++ delK.map Prod.fst)).flatMap
        (fun k => (optKeyAt to_copy copyK delK k).1.remCp) := rfl

/-- Unfolded surviving-delete component of `optimizeKeyed`. -/
theorem optimizeKeyed_rrm (to_copy : List (FileRecord × String))
    (copyK : List (IdentityKey × String × String))
    (delK : List (IdentityKey × FileRecord)) :
    (optimizeKeyed to_copy copyK delK).2.2 =
      (dedupF (copyK.map Prod.fst ++ delK.map Prod.fst)).flatMap
        (fun k => (optKeyAt to_copy copyK delK k).2) := rfl

/-- Every pending copy's identity key occurs in the optimizer's key list. -/
theorem copy_key_mem_keys (level : Nat) (to_copy : List (FileRecord × String))
    (extra : List FileRecord) {rt : FileRecord × String} (h : rt ∈ to_copy) :
    keyAt level rt.1 ∈
      dedupF ((taggedCopies level to_copy).map Prod.fst ++ (tagged level extra).map Prod.fst) := by
  rw [mem_dedupF, List.mem_append]
  left
  simp only [taggedCopies, List.map_map, List.mem_map]
  exact ⟨rt, h, rfl⟩

/-- Every pending delete's identity key occurs in the optimizer's key list. -/
theorem del_key_mem_keys (level : Nat) (to_copy : List (FileRecord × String))
    (extra : List FileRecord) {r : FileRecord} (h : r ∈ extra) :
    keyAt level r ∈
      dedupF ((taggedCopies level to_copy).map Prod.fst ++ (tagged level extra).map Prod.fst) := by
  rw [mem_dedupF, List.mem_append]
  right
  simp only [tagged, List.map_map, List.mem_map]
  exact ⟨r, h, rfl⟩

/-- Aggregated copy conservation over all identities: moves' destinations and
surviving copies' destinations recover the incoming copy destinations. -/
theorem optimizeKeyed_copy_perm (level : Nat) (to_copy : List (FileRecord × String))
    (extra : List FileRecord) :
    List.Perm
      (((optimizeKeyed to_copy (taggedCopies level to_copy) (tagged level extra)).1).map Prod.snd
        ++ ((optimizeKeyed to_copy (taggedCopies level to_copy) (tagged level extra)).2.1).map
          Prod.snd)
      (to_copy.map Prod.snd) := by
  rw [optimizeKeyed_mvs, optimizeKeyed_rcp]
  rw [List.map_flatMap, List.map_flatMap]
  refine (flatMap_append_perm _ _ _).symm.trans ?_
  have hcong : ((dedupF ((taggedCopies level to_copy).map Prod.fst ++
      (tagged level extra).map Prod.fst)).flatMap fun k =>
        ((optKeyAt to_copy (taggedCopies level to_copy) (tagged level extra) k).1.mvs).map Prod.snd
        ++ ((optKeyAt to_copy (taggedCopies level to_copy) (tagged level extra) k).1.remCp).map
          Prod.snd) =
      (dedupF ((taggedCopies level to_copy).map Prod.fst ++
        (tagged level extra).map Prod.fst)).flatMap fun k =>
          (to_copy.filter fun rt => decide (keyAt level rt.1 = k)).map Prod.snd :=
    List.flatMap_congr fun k _ => optKeyAt_copy_conserve level to_copy extra k
  rw [hcong]
  rw [← List.map_flatMap]
  exact List.Perm.map Prod.snd
    (flatMap_filter_perm (fun rt => keyAt level rt.1) _ to_copy
      (nodup_dedupF _) (fun rt h => copy_key_mem_keys level to_copy extra h))

/-- Aggregated delete conservation over all identities: moves' sources and
surviving deletes' paths recover the incoming extra paths. -/
theorem optimizeKeyed_del_perm (level : Nat) (to_copy : List (FileRecord × String))
    (extra : List FileRecord) :
    List.Perm
      (((optimizeKeyed to_copy (taggedCopies level to_copy) (tagged level extra)).1).map Prod.fst
        ++ ((optimizeKeyed to_copy (taggedCopies level to_copy) (tagged level extra)).2.2).map
          FileRecord.get_full_path)
      (extra.map FileRecord.get_full_path) := by
  rw [optimizeKeyed_mvs, optimizeKeyed_rrm]
  rw [List.map_flatMap, List.map_flatMap]
  refine (flatMap_append_perm _ _ _).symm.trans ?_
  have hcong : ((dedupF ((taggedCopies level to_copy).map Prod.fst ++
      (tagged level extra).map Prod.fst)).flatMap fun k =>
        ((optKeyAt to_copy (taggedCopies level to_copy) (tagged level extra) k).1.mvs).map Prod.fst
        ++ ((optKeyAt to_copy (taggedCopies level to_copy) (tagged level extra) k).2).map
          FileRecord.get_full_path) =
      (dedupF ((taggedCopies level to_copy).map Prod.fst ++
        (tagged level extra).map Prod.fst)).flatMap fun k =>
          (extra.filter fun r => decide (keyAt level r = k)).map FileRecord.get_full_path :=
    List.flatMap_congr fun k _ => optKeyAt_del_conserve level to_copy extra k
  rw [hcong]
  rw [← List.map_flatMap]
  exact List.Perm.map FileRecord.get_full_path
    (flatMap_filter_perm (fun r => keyAt level r) _ extra
      (nodup_dedupF _) (fun r h => del_key_mem_keys level to_copy extra h))

/-- C2 main statement: on a valid level the optimizer conserves work as
multisets — incoming copy destinations split exactly into move destinations
plus surviving copy destinations, and incoming extra paths split exactly
into move sources plus surviving delete paths. -/
theorem optimize_commands_conservation (to_copy : List (FileRecord × String))
    (extra : List FileRecord) (level : Nat)
    (hl : level = 1 ∨ level = 2 ∨ level = 3) :
    ∃ mvs rcp rrm, optimize_commands to_copy extra level = some (mvs, rcp, rrm) ∧
      (↑(to_copy.map Prod.snd) : Multiset String)
        = ↑(mvs.map Prod.snd) + ↑(rcp.map Prod.snd) ∧
      (↑(extra.map FileRecord.get_full_path) : Multiset String)
        = ↑(mvs.map Prod.fst) + ↑(rrm.map FileRecord.get_full_path) := by
  refine ⟨(optimizeKeyed to_copy (taggedCopies level to_copy) (tagged level extra)).1,
    (optimizeKeyed to_copy (taggedCopies level to_copy) (tagged level extra)).2.1,
    (optimizeKeyed to_copy (taggedCopies level to_copy) (tagged level extra)).2.2,
    ?_, ?_, ?_⟩
  · rw [optimize_commands_valid to_copy extra level hl]
  · rw [Multiset.coe_add]
    exact (Multiset.coe_eq_coe.mpr (optimizeKeyed_copy_perm level to_copy extra)).symm
  · rw [Multiset.coe_add]
    exact (Multiset.coe_eq_coe.mpr (optimizeKeyed_del_perm level to_copy extra)).symm

/-- Witness for conservation at a concrete input: one pending copy and one
same-identity extra. -/
theorem optimize_commands_conservation_witness :
    (1 = 1 ∨ 1 = 2 ∨ 1 = 3) ∧
    (∃ mvs rcp rrm,
      optimize_commands [((⟨"c", "x", 1, none, none⟩ : FileRecord), "a/x")]
          [(⟨"b", "x", 1, none, none⟩ : FileRecord)] 1 =
        some (mvs, rcp, rrm) ∧
      (↑([((⟨"c", "x", 1, none, none⟩ : FileRecord), "a/x")].map Prod.snd) : Multiset String)
        = ↑(mvs.map Prod.snd) + ↑(rcp.map Prod.snd) ∧
      (↑([(⟨"b", "x", 1, none, none⟩ : FileRecord)].map FileRecord.get_full_path) :
          Multiset String)
        = ↑(mvs.map Prod.fst) + ↑(rrm.map FileRecord.get_full_path)) :=
  ⟨Or.inl rfl,
    optimize_commands_conservation [((⟨"c", "x", 1, none, none⟩ : FileRecord), "a/x")]
      [(⟨"b", "x", 1, none, none⟩ : FileRecord)] 1 (Or.inl rfl)⟩

/-- The optimizer's key list on tagged inputs, in source-level terms. -/
theorem keys_eq (level : Nat) (to_copy : List (FileRecord × String))
    (extra : List FileRecord) :
    dedupF ((taggedCopies level to_copy).map Prod.fst ++ (tagged level extra).map Prod.fst) =
      keysAt level to_copy extra := by
  rw [keysAt]
  have h1 : (taggedCopies level to_copy).map Prod.fst =
      to_copy.map fun rt => keyAt level rt.1 := by
    rw [taggedCopies, List.map_map]
    rfl
  have h2 : (tagged level extra).map Prod.fst = extra.map (keyAt level) := by
    rw [tagged, List.map_map]
    rfl
  rw [h1, h2]

/-- Key-indexed optimizer on a single same-identity copy/delete pair: one
move consuming the delete as its source, nothing left over. -/
theorem optimizeKeyed_singleton (r e : FileRecord) (d1 : String) (level : Nat)
    (hk : keyAt level r = keyAt level e) :
    optimizeKeyed [(r, d1)] (taggedCopies level [(r, d1)]) (tagged level [e]) =
      ([(e.get_full_path, d1)], [], []) := by
  have hkeys : dedupF ((taggedCopies level [(r, d1)]).map Prod.fst ++
      (tagged level [e]).map Prod.fst) = [keyAt level e] := by
    show dedupF ([keyAt level r] ++ [keyAt level e]) = [keyAt level e]
    rw [hk]
    simp [dedupF, insertOnce]
  have hcd : copyDestsAt level [(r, d1)] (keyAt level e) = [d1] := by
    rw [copyDestsAt, List.filter_cons, if_pos (by simp [hk])]
    rfl
  have hdp : delPathsAt level [e] (keyAt level e) = [e.get_full_path] := by
    rw [delPathsAt, List.filter_cons, if_pos (by simp)]
    rfl
  have hfe : [e].filter (fun x => decide (keyAt level x = keyAt level e)) = [e] := by
    rw [List.filter_cons, if_pos (by simp)]
    rfl
  refine Prod.ext ?_ (Prod.ext ?_ ?_)
  · rw [optimizeKeyed_mvs, hkeys]
    rw [List.flatMap_cons, List.flatMap_nil, List.append_nil]
    rw [optKeyAt_mvs, hcd, hdp]
    rfl
  · show (optimizeKeyed [(r, d1)] (taggedCopies level [(r, d1)]) (tagged level [e])).2.1 = []
    rw [optimizeKeyed_rcp, hkeys]
    rw [List.flatMap_cons, List.flatMap_nil, List.append_nil]
    have hsnd := optKeyAt_remCp_snd level [(r, d1)] [e] (keyAt level e)
    rw [hcd, hdp] at hsnd
    simp only [List.length_cons, List.length_nil, List.drop_succ_cons, List.drop_nil] at hsnd
    exact List.map_eq_nil_iff.mp hsnd
  · show (optimizeKeyed [(r, d1)] (taggedCopies level [(r, d1)]) (tagged level [e])).2.2 = []
    rw [optimizeKeyed_rrm, hkeys]
    rw [List.flatMap_cons, List.flatMap_nil, List.append_nil]
    rw [optKeyAt_rm, hcd, hdp, hfe]
    rfl

/-- C3 main statement: a single same-identity copy/delete pair folds into
exactly one move from the extra's path to the copy destination with nothing
left over; and in general the emitted moves pair each identity's copy
destinations, in discovery order, with its unused delete paths in discovery
order (a zip, truncating at the shorter list). -/
theorem optimize_commands_move_folding :
    (∀ (r e : FileRecord) (d1 : String) (level : Nat),
      level = 1 ∨ level = 2 ∨ level = 3 →
      r.get_identity_key level = e.get_identity_key level →
      optimize_commands [(r, d1)] [e] level = some ([(e.get_full_path, d1)], [], [])) ∧
    (∀ (to_copy : List (FileRecord × String)) (extra : List FileRecord) (level : Nat),
      level = 1 ∨ level = 2 ∨ level = 3 →
      ∃ mvs rcp rrm, optimize_commands to_copy extra level = some (mvs, rcp, rrm) ∧
        mvs = (keysAt level to_copy extra).flatMap
          (fun k => (delPathsAt level extra k).zip (copyDestsAt level to_copy k))) := by
  constructor
  · intro r e d1 level hl hkey
    have hk : keyAt level r = keyAt level e := by
      have h1 := get_identity_key_valid r level hl
      have h2 := get_identity_key_valid e level hl
      rw [h1, h2] at hkey
      exact Option.some.injEq _ _ ▸ hkey
    rw [optimize_commands_valid [(r, d1)] [e] level hl]
    rw [optimizeKeyed_singleton r e d1 level hk]
  · intro to_copy extra level hl
    refine ⟨(optimizeKeyed to_copy (taggedCopies level to_copy) (tagged level extra)).1,
      (optimizeKeyed to_copy (taggedCopies level to_copy) (tagged level extra)).2.1,
      (optimizeKeyed to_copy (taggedCopies level to_copy) (tagged level extra)).2.2,
      ?_, ?_⟩
    · rw [optimize_commands_valid to_copy extra level hl]
    · rw [optimizeKeyed_mvs, keys_eq]
      exact List.flatMap_congr fun k _ => optKeyAt_mvs level to_copy extra k

/-- Witness for move folding: a same-identity copy/delete pair at level 1. -/
theorem optimize_commands_move_folding_witness :
    (1 = 1 ∨ 1 = 2 ∨ 1 = 3) ∧
    ((⟨"c", "x", 1, none, none⟩ : FileRecord).get_identity_key 1 =
      (⟨"b", "x", 1, none, none⟩ : FileRecord).get_identity_key 1) ∧
    optimize_commands [((⟨"c", "x", 1, none, none⟩ : FileRecord), "a/x")]
        [(⟨"b", "x", 1, none, none⟩ : FileRecord)] 1 =
      some ([("b/x", "a/x")], [], []) := by
  refine ⟨Or.inl rfl, by decide, ?_⟩
  have h := optimize_commands_move_folding.1 (⟨"c", "x", 1, none, none⟩ : FileRecord)
    (⟨"b", "x", 1, none, none⟩ : FileRecord) "a/x" 1 (Or.inl rfl) (by decide)
  rw [h]
  rfl

/-- Counterexample to the duplicate-handling claim as stated: with inventory
demanding a/x and b/x of one identity and the target holding only c/x,
classification does yield two copies sourced from c/x and zero missing, but
it yields ONE extra entry (the c/x occurrence, whose path is not demanded)
rather than zero. -/
theorem classify_duplicate_extra_counterexample :
    classify_files [⟨"a", "x", 1, none, none⟩, ⟨"b", "x", 1, none, none⟩]
        [⟨"c", "x", 1, none, none⟩] 1 =
      some ([],
        [((⟨"c", "x", 1, none, none⟩ : FileRecord), "a/x"),
         ((⟨"c", "x", 1, none, none⟩ : FileRecord), "b/x")],
        [], [⟨"c", "x", 1, none, none⟩]) := by decide

/-- C4 amended: with two same-identity inventory demands at distinct paths
and a single target occurrence at a third path, classification yields two
toCopy entries both sourced from the one target record, zero missing, and
one extra entry — the shared source itself, since its own path is not
demanded. -/
theorem classify_duplicate_shared_source (r1 r2 rt : FileRecord) (level : Nat)
    (hl : level = 1 ∨ level = 2 ∨ level = 3)
    (h1 : r1.get_identity_key level = rt.get_identity_key level)
    (h2 : r2.get_identity_key level = rt.get_identity_key level)
    (hp12 : r1.get_full_path ≠ r2.get_full_path)
    (hp1t : r1.get_full_path ≠ rt.get_full_path)
    (hp2t : r2.get_full_path ≠ rt.get_full_path) :
    classify_files [r1, r2] [rt] level =
      some ([], [(rt, r1.get_full_path), (rt, r2.get_full_path)], [], [rt]) := by
  have hk1 : keyAt level r1 = keyAt level rt := by
    have ha := get_identity_key_valid r1 level hl
    have hb := get_identity_key_valid rt level hl
    rw [ha, hb] at h1
    exact Option.some.injEq _ _ ▸ h1
  have hk2 : keyAt level r2 = keyAt level rt := by
    have ha := get_identity_key_valid r2 level hl
    have hb := get_identity_key_valid rt level hl
    rw [ha, hb] at h2
    exact Option.some.injEq _ _ ▸ h2
  rw [classify_files_valid [r1, r2] [rt] level hl]
  have hkeys : dedupF ((tagged level [r1, r2]).map Prod.fst ++
      (tagged level [rt]).map Prod.fst) = [keyAt level rt] := by
    show dedupF ([keyAt level r1, keyAt level r2] ++ [keyAt level rt]) = [keyAt level rt]
    rw [hk1, hk2]
    simp [dedupF, insertOnce]
  have hrecI : recsOf (tagged level [r1, r2]) (keyAt level rt) = [r1, r2] := by
    rw [recsOf_map]
    simp [List.filter_cons, hk1, hk2]
  have hrecT : recsOf (tagged level [rt]) (keyAt level rt) = [rt] := by
    rw [recsOf_map]
    simp [List.filter_cons]
  have hpathsI : pathsOf [r1, r2] = [r1.get_full_path, r2.get_full_path] := by
    show dedupF [r1.get_full_path, r2.get_full_path] = _
    simp [dedupF, insertOnce, (Ne.symm hp12 : r2.get_full_path ≠ r1.get_full_path)]
  have hpathsT : pathsOf [rt] = [rt.get_full_path] := by
    show dedupF [rt.get_full_path] = _
    simp [dedupF, insertOnce]
  have hunch : unchangedOf [r1, r2] [rt] = [] := by
    rw [unchangedOf, hpathsI, hpathsT]
    simp [List.filter_cons, hp1t, hp2t]
  have hcopy : toCopyPathsOf [r1, r2] [rt] = [r1.get_full_path, r2.get_full_path] := by
    rw [toCopyPathsOf, hpathsI, hpathsT]
    simp [List.filter_cons, hp1t, hp2t]
  have hex : extraRecsOf [r1, r2] [rt] = [rt] := by
    rw [extraRecsOf, hpathsI, hpathsT]
    simp [List.filter_cons,
      (Ne.symm hp1t : rt.get_full_path ≠ r1.get_full_path),
      (Ne.symm hp2t : rt.get_full_path ≠ r2.get_full_path), List.find?]
  congr 1
  show classifyKeyed (tagged level [r1, r2]) (tagged level [rt]) = _
  refine Prod.ext ?_ (Prod.ext ?_ (Prod.ext ?_ ?_))
  · rw [classifyKeyed_fst, hkeys, List.flatMap_cons, List.flatMap_nil, List.append_nil,
      hrecI, hrecT]
    show unchangedOf [r1, r2] [rt] = []
    exact hunch
  · rw [classifyKeyed_copy, hkeys, List.flatMap_cons, List.flatMap_nil, List.append_nil,
      hrecI, hrecT]
    show (toCopyPathsOf [r1, r2] [rt]).map (fun p => (rt, p)) = _
    rw [hcopy]
    rfl
  · rw [classifyKeyed_missing, hkeys, List.flatMap_cons, List.flatMap_nil, List.append_nil,
      hrecI, hrecT]
    rfl
  · rw [classifyKeyed_extra, hkeys, List.flatMap_cons, List.flatMap_nil, List.append_nil,
      hrecI, hrecT]
    show extraRecsOf [r1, r2] [rt] = [rt]
    exact hex

/-- Witness for the amended duplicate-handling theorem at a concrete level-1
input. -/
theorem classify_duplicate_shared_source_witness :
    (1 = 1 ∨ 1 = 2 ∨ 1 = 3) ∧
    classify_files [⟨"a", "y", 2, none, none⟩, ⟨"b", "y", 2, none, none⟩]
        [⟨"c", "y", 2, none, none⟩] 1 =
      some ([],
        [((⟨"c", "y", 2, none, none⟩ : FileRecord), "a/y"),
         ((⟨"c", "y", 2, none, none⟩ : FileRecord), "b/y")],
        [], [⟨"c", "y", 2, none, none⟩]) :=
  ⟨Or.inl rfl,
    classify_duplicate_shared_source ⟨"a", "y", 2, none, none⟩ ⟨"b", "y", 2, none, none⟩
      ⟨"c", "y", 2, none, none⟩ 1 (Or.inl rfl) (by decide) (by decide)
      (by decide) (by decide) (by decide)⟩

/-- The ordering scan splits over an append, threading the last command. -/
theorem mkdirBeforeAux_append (ys : List Command) :
    ∀ (xs : List Command) (prev : Option Command),
      mkdirBeforeAux prev (xs ++ ys) =
        (mkdirBeforeAux prev xs && mkdirBeforeAux (lastOr prev xs) ys) := by
  intro xs
  induction xs with
  | nil => intro prev; simp [mkdirBeforeAux, lastOr]
  | cons c rest ih =>
    intro prev
    rw [List.cons_append, mkdirBeforeAux, mkdirBeforeAux]
    rw [ih (some c)]
    rw [show lastOr prev (c :: rest) = lastOr (some c) rest from rfl]
    rw [Bool.and_assoc]

/-- Commands that write into no directory pass the ordering scan from any
starting point. -/
theorem mkdirBeforeAux_none (l : List Command) (h : ∀ c ∈ l, needsDir c = none) :
    ∀ prev, mkdirBeforeAux prev l = true := by
  induction l with
  | nil => intro prev; rfl
  | cons c rest ih =>
    intro prev
    rw [mkdirBeforeAux]
    rw [h c (List.mem_cons_self c rest)]
    exact ih (fun c' hc' => h c' (List.mem_cons_of_mem _ hc')) (some c)

/-- A guarded `mv` chunk passes the ordering scan from any starting point. -/
theorem mkdirBeforeAux_chunk_mv (s d : String) (prev : Option Command) :
    mkdirBeforeAux prev (mkGuard d ++ [Command.mv s d]) = true := by
  rw [mkGuard]
  by_cases h : pyParent d ≠ "" ∧ pyParent d ≠ "."
  · rw [if_pos h]
    simp [mkdirBeforeAux, needsDir, h]
  · rw [if_neg h]
    simp [mkdirBeforeAux, needsDir, h]

/-- A guarded `cp` chunk passes the ordering scan from any starting point. -/
theorem mkdirBeforeAux_chunk_cp (s d : String) (prev : Option Command) :
    mkdirBeforeAux prev (mkGuard d ++ [Command.cp s d]) = true := by
  rw [mkGuard]
  by_cases h : pyParent d ≠ "" ∧ pyParent d ≠ "."
  · rw [if_pos h]
    simp [mkdirBeforeAux, needsDir, h]
  · rw [if_neg h]
    simp [mkdirBeforeAux, needsDir, h]

/-- A concatenation of chunks each passing the scan from any starting point
passes the scan from any starting point. -/
theorem mkdirBeforeAux_flatMap {β : Type} (l : List β) (f : β → List Command)
    (hf : ∀ b ∈ l, ∀ prev, mkdirBeforeAux prev (f b) = true) :
    ∀ prev, mkdirBeforeAux prev (l.flatMap f) = true := by
  induction l with
  | nil => intro prev; rfl
  | cons b rest ih =>
    intro prev
    rw [List.flatMap_cons, mkdirBeforeAux_append]
    rw [hf b (List.mem_cons_self b rest) prev]
    rw [ih (fun b' hb' => hf b' (List.mem_cons_of_mem _ hb'))]
    rfl

/-- The operation-ordering scan splits over an append. -/
theorem opsDirAux_append (ys : List FsOp) :
    ∀ (xs : List FsOp) (prev : Option FsOp),
      opsDirAux prev (xs ++ ys) =
        (opsDirAux prev xs && opsDirAux (lastOr prev xs) ys) := by
  intro xs
  induction xs with
  | nil => intro prev; simp [opsDirAux, lastOr]
  | cons c rest ih =>
    intro prev
    rw [List.cons_append, opsDirAux, opsDirAux]
    rw [ih (some c)]
    rw [show lastOr prev (c :: rest) = lastOr (some c) rest from rfl]
    rw [Bool.and_assoc]

/-- Operations that write into no directory pass the scan from any starting
point. -/
theorem opsDirAux_none (l : List FsOp) (h : ∀ c ∈ l, opNeedsDir c = none) :
    ∀ prev, opsDirAux prev l = true := by
  induction l with
  | nil => intro prev; rfl
  | cons c rest ih =>
    intro prev
    rw [opsDirAux]
    rw [h c (List.mem_cons_self c rest)]
    exact ih (fun c' hc' => h c' (List.mem_cons_of_mem _ hc')) (some c)

/-- An executed move chunk (mkdir then move) passes the scan from any
starting point. -/
theorem opsDirAux_chunk_move (s d : String) (prev : Option FsOp) :
    opsDirAux prev [FsOp.mkdirParents (pyParent d), FsOp.move s d] = true := by
  simp [opsDirAux, opNeedsDir]

/-- An executed copy chunk (mkdir then copy) passes the scan from any
starting point. -/
theorem opsDirAux_chunk_copy (s d : String) (prev : Option FsOp) :
    opsDirAux prev [FsOp.mkdirParents (pyParent d), FsOp.copy s d] = true := by
  simp [opsDirAux, opNeedsDir]

/-- A concatenation of operation chunks each passing the scan from any
starting point passes the scan from any starting point. -/
theorem opsDirAux_flatMap {β : Type} (l : List β) (f : β → List FsOp)
    (hf : ∀ b ∈ l, ∀ prev, opsDirAux prev (f b) = true) :
    ∀ prev, opsDirAux prev (l.flatMap f) = true := by
  induction l with
  | nil => intro prev; rfl
  | cons b rest ih =>
    intro prev
    rw [List.flatMap_cons, opsDirAux_append]
    rw [hf b (List.mem_cons_self b rest) prev]
    rw [ih (fun b' hb' => hf b' (List.mem_cons_of_mem _ hb'))]
    rfl

/-- C5 amended main statement: in both dry-run command generation and
execution, every move/copy writing into a directory is immediately preceded
by the operation ensuring that directory (per operation, not deduplicated). -/
theorem ensure_dir_before_write (u : List (FileRecord × FileRecord))
    (c : List (FileRecord × String)) (m e : List FileRecord)
    (verbose delete_extra : Bool) (level : Nat) :
    (∀ cmds, generate_unix_commands u c m e verbose delete_extra level = some cmds →
      mkdirBefore cmds = true) ∧
    (∀ ops msgs, execute_file_operations u c m e delete_extra verbose level = some (ops, msgs) →
      opsDirBefore ops = true) := by
  have hech : ∀ prev, mkdirBeforeAux prev
      (if verbose then u.map (fun ut => Command.echoUnchanged ut.2.get_full_path) else []) =
        true := by
    refine mkdirBeforeAux_none _ ?_
    intro cmd hcmd
    cases verbose with
    | false => simp at hcmd
    | true =>
      rw [if_pos rfl, List.mem_map] at hcmd
      obtain ⟨ut, _, rfl⟩ := hcmd
      rfl
  have htodo : ∀ prev, mkdirBeforeAux prev
      (m.map fun r => Command.todoMissing r.get_full_path) = true := by
    refine mkdirBeforeAux_none _ ?_
    intro cmd hcmd
    rw [List.mem_map] at hcmd
    obtain ⟨r, _, rfl⟩ := hcmd
    rfl
  constructor
  · intro cmds hcmds
    cases delete_extra with
    | false =>
      simp only [generate_unix_commands, Bool.false_eq_true, if_false,
        Option.some.injEq] at hcmds
      subst hcmds
      rw [mkdirBefore, mkdirBeforeAux_append, mkdirBeforeAux_append]
      rw [hech, htodo]
      rw [mkdirBeforeAux_flatMap c _
        (fun rt _ prev => mkdirBeforeAux_chunk_cp rt.1.get_full_path rt.2 prev)]
      rfl
    | true =>
      rcases hopt : optimize_commands c e level with _ | res
      · rw [generate_unix_commands] at hcmds
        rw [if_pos rfl, hopt] at hcmds
        exact absurd hcmds (by simp)
      · obtain ⟨mvs, rcp, rrm⟩ := res
        rw [generate_unix_commands] at hcmds
        rw [if_pos rfl, hopt, Option.some.injEq] at hcmds
        subst hcmds
        rw [mkdirBefore, mkdirBeforeAux_append, mkdirBeforeAux_append,
          mkdirBeforeAux_append, mkdirBeforeAux_append]
        rw [hech, htodo]
        rw [mkdirBeforeAux_flatMap mvs _
          (fun st _ prev => mkdirBeforeAux_chunk_mv st.1 st.2 prev)]
        rw [mkdirBeforeAux_flatMap rcp _
          (fun rt _ prev => mkdirBeforeAux_chunk_cp rt.1.get_full_path rt.2 prev)]
        rw [mkdirBeforeAux_none (rrm.map fun r => Command.rm r.get_full_path)
          (by
            intro cmd hcmd
            rw [List.mem_map] at hcmd
            obtain ⟨r, _, rfl⟩ := hcmd
            rfl)]
        rfl
  · intro ops msgs hops
    cases delete_extra with
    | false =>
      simp only [execute_file_operations, Bool.false_eq_true, if_false,
        Option.some.injEq, Prod.mk.injEq] at hops
      obtain ⟨hops1, _⟩ := hops
      subst hops1
      rw [opsDirBefore]
      exact opsDirAux_flatMap c _
        (fun rt _ prev => opsDirAux_chunk_copy rt.1.get_full_path rt.2 prev) none
    | true =>
      rcases hopt : optimize_commands c e level with _ | res
      · rw [execute_file_operations] at hops
        rw [if_pos rfl, hopt] at hops
        exact absurd hops (by simp)
      · obtain ⟨mvs, rcp, rrm⟩ := res
        rw [execute_file_operations] at hops
        rw [if_pos rfl, hopt, Option.some.injEq, Prod.mk.injEq] at hops
        obtain ⟨hops1, _⟩ := hops
        subst hops1
        rw [opsDirBefore, opsDirAux_append, opsDirAux_append]
        rw [opsDirAux_flatMap mvs _ (fun st _ prev => opsDirAux_chunk_move st.1 st.2 prev)]
        rw [opsDirAux_flatMap rcp _
          (fun rt _ prev => opsDirAux_chunk_copy rt.1.get_full_path rt.2 prev)]
        rw [opsDirAux_none (rrm.map fun r => FsOp.unlink r.get_full_path)
          (by
            intro op hop
            rw [List.mem_map] at hop
            obtain ⟨r, _, rfl⟩ := hop
            rfl)]
        rfl

/-- Witness for the ensure-directory ordering theorem at a concrete input. -/
theorem ensure_dir_before_write_witness :
    generate_unix_commands [] [((⟨"c", "x", 1, none, none⟩ : FileRecord), "d/f1")] [] []
        false false 1 =
      some [Command.mkdirp "d", Command.cp "c/x" "d/f1"] ∧
    mkdirBefore [Command.mkdirp "d", Command.cp "c/x" "d/f1"] = true :=
  ⟨by decide,
    (ensure_dir_before_write [] [((⟨"c", "x", 1, none, none⟩ : FileRecord), "d/f1")] [] []
        false false 1).1
      [Command.mkdirp "d", Command.cp "c/x" "d/f1"] (by decide)⟩

/-- Counterexample to deduplication of directory guards: two copies into the
same parent directory emit `mkdir -p` twice, once per operation, rather than
a single deduplicated `EnsureDirectory`. -/
theorem mkdir_not_dedup_counterexample :
    generate_unix_commands []
        [((⟨"c", "x", 1, none, none⟩ : FileRecord), "d/f1"),
         ((⟨"c", "x", 1, none, none⟩ : FileRecord), "d/f2")] [] [] false false 1 =
      some [Command.mkdirp "d", Command.cp "c/x" "d/f1",
        Command.mkdirp "d", Command.cp "c/x" "d/f2"] := by decide

/-- C6 amended main statement: missing entries never contribute a move, copy
or delete — dropping them changes no planned command and no attempted
operation; in dry-run each missing entry appends exactly one TODO comment
line regardless of verbosity, while in execute mode the only trace of
missing entries is the summary warning, printed only when verbose is set. -/
theorem missing_entries_diagnostic (u : List (FileRecord × FileRecord))
    (c : List (FileRecord × String)) (m e : List FileRecord)
    (verbose delete_extra : Bool) (level : Nat) :
    generate_unix_commands u c m e verbose delete_extra level =
      (generate_unix_commands u c [] e verbose delete_extra level).map
        (fun cmds => cmds ++ m.map fun r => Command.todoMissing r.get_full_path) ∧
    execute_file_operations u c m e delete_extra verbose level =
      (execute_file_operations u c [] e delete_extra verbose level).map
        (fun om => (om.1,
          om.2 ++ if !m.isEmpty && verbose then [warnMissing m.length] else [])) := by
  constructor
  · cases delete_extra with
    | false =>
      simp [generate_unix_commands, List.append_assoc]
    | true =>
      rcases hopt : optimize_commands c e level with _ | res
      · simp [generate_unix_commands, hopt]
      · obtain ⟨mvs, rcp, rrm⟩ := res
        simp [generate_unix_commands, hopt, List.append_assoc]
  · cases delete_extra with
    | false =>
      simp [execute_file_operations, List.append_assoc]
    | true =>
      rcases hopt : optimize_commands c e level with _ | res
      · simp [execute_file_operations, hopt]
      · obtain ⟨mvs, rcp, rrm⟩ := res
        simp [execute_file_operations, hopt, List.append_assoc]

/-- Counterexample to the claim that missing entries are always surfaced
regardless of verbosity: executing with one missing entry and verbosity off
prints no message at all — the missing-files warning of
`execute_file_operations` is emitted only under verbose. -/
theorem execute_missing_warning_counterexample :
    execute_file_operations [] [] [⟨"", "x", 1, none, none⟩] [] false false 1 =
      some ([], []) := by decide

/-- The inference fold never changes a level that is already set. -/
theorem dirmimic_foldl_const : ∀ (es : List FileRecord) (lv : Int), lv ≠ -1 →
    es.foldl (fun lv e => if lv = -1 then
      (if e.full_sha1.isSome then 3 else if e.sample_sha1.isSome then 2 else 1)
      else lv) lv = lv := by
  intro es
  induction es with
  | nil => intro lv _; rfl
  | cons e rest ih =>
    intro lv hlv
    rw [List.foldl_cons, if_neg hlv]
    exact ih lv hlv

/-- C7 main statement: mirror reconciliation infers the identity level from
the optional fields of the first inventory record (full_sha1 ⇒ 3, else
sample_sha1 ⇒ 2, else 1), and an inventory with no record at all is fatal
before classification. -/
theorem dirmimic_level_inference :
    (∀ (e : FileRecord) (es : List FileRecord),
      Dirmimic.handle_mirror_level (e :: es) =
        some (if e.full_sha1.isSome then 3 else if e.sample_sha1.isSome then 2 else 1)) ∧
    Dirmimic.handle_mirror_level [] = none := by
  constructor
  · intro e es
    rw [Dirmimic.handle_mirror_level, Dirmimic.inferLevel, List.foldl_cons]
    rw [if_pos rfl]
    cases hfull : e.full_sha1.isSome with
    | true =>
      simp only [eq_self_iff_true, if_true]
      rw [dirmimic_foldl_const es 3 (by decide)]
      rfl
    | false =>
      simp only [Bool.false_eq_true, if_false]
      cases hsample : e.sample_sha1.isSome with
      | true =>
        simp only [eq_self_iff_true, if_true]
        rw [dirmimic_foldl_const es 2 (by decide)]
        rfl
      | false =>
        simp only [Bool.false_eq_true, if_false]
        rw [dirmimic_foldl_const es 1 (by decide)]
        rfl
  · rfl

/-- C8 main statement: on a readable file the loader is total — it returns
exactly the records of the well-formed lines, so any malformed line (invalid
JSON or a missing required field, Python's `JSONDecodeError`/`KeyError`
handler) is skipped while the rest of the file is still loaded — and the
skipped malformed line's number is warned about, whichever kind it is. -/
theorem load_inventory_skips_malformed :
    (∀ (n : Nat) (lines : List Load.InvLine),
      (Load.load_inventory n lines).1 = lines.filterMap Load.lineRecord) ∧
    (∀ (n : Nat) (xs ys : List Load.InvLine) (l : Load.InvLine), Load.lineBad l = true →
      (n + xs.length) ∈ (Load.load_inventory n (xs ++ l :: ys)).2) := by
  have hrecords : ∀ (lines : List Load.InvLine) (n : Nat),
      (Load.load_inventory n lines).1 = lines.filterMap Load.lineRecord := by
    intro lines
    induction lines with
    | nil => intro n; rfl
    | cons line rest ih =>
      intro n
      cases line with
      | blank =>
        rw [Load.load_inventory]
        rw [ih (n + 1)]
        rfl
      | invalidJson =>
        cases hrec : Load.load_inventory (n + 1) rest with
        | mk rs ws =>
          rw [Load.load_inventory, hrec]
          have := ih (n + 1)
          rw [hrec] at this
          exact this
      | obj o =>
        cases hrec : Load.load_inventory (n + 1) rest with
        | mk rs ws =>
          have hih := ih (n + 1)
          rw [hrec] at hih
          rcases hmk : Load.mkRecord o with _ | r
          · rw [Load.load_inventory, hmk, hrec]
            rw [List.filterMap_cons_none
              (show Load.lineRecord (Load.InvLine.obj o) = none from hmk)]
            exact hih
          · rw [Load.load_inventory, hmk, hrec]
            rw [List.filterMap_cons_some
              (show Load.lineRecord (Load.InvLine.obj o) = some r from hmk)]
            rw [← hih]
  refine ⟨fun n lines => hrecords lines n, ?_⟩
  intro n xs
  induction xs generalizing n with
  | nil =>
    intro ys l hl
    simp only [List.nil_append, List.length_nil, Nat.add_zero]
    cases l with
    | blank => exact absurd hl (by decide)
    | invalidJson =>
      cases hrec : Load.load_inventory (n + 1) ys with
      | mk rs ws =>
        rw [Load.load_inventory, hrec]
        exact List.mem_cons_self n ws
    | obj o =>
      rcases hmk : Load.mkRecord o with _ | r
      · cases hrec : Load.load_inventory (n + 1) ys with
        | mk rs ws =>
          rw [Load.load_inventory, hmk, hrec]
          exact List.mem_cons_self n ws
      · have hbad : (Load.mkRecord o).isNone = true := hl
        rw [hmk] at hbad
        simp at hbad
  | cons x rest ih =>
    intro ys l hl
    rw [List.cons_append]
    have hlen : n + (x :: rest).length = (n + 1) + rest.length := by
      rw [List.length_cons]
      omega
    rw [hlen]
    cases x with
    | blank =>
      rw [Load.load_inventory]
      exact ih (n + 1) ys l hl
    | invalidJson =>
      cases hrec : Load.load_inventory (n + 1) (rest ++ l :: ys) with
      | mk rs ws =>
        rw [Load.load_inventory, hrec]
        have := ih (n + 1) ys l hl
        rw [hrec] at this
        exact List.mem_cons_of_mem n this
    | obj o =>
      cases hrec : Load.load_inventory (n + 1) (rest ++ l :: ys) with
      | mk rs ws =>
        have hmem := ih (n + 1) ys l hl
        rw [hrec] at hmem
        rcases hmk : Load.mkRecord o with _ | r
        · rw [Load.load_inventory, hmk, hrec]
          exact List.mem_cons_of_mem n hmem
        · rw [Load.load_inventory, hmk, hrec]
          exact hmem

/-- Witness for the loader theorem at a concrete input: a line whose JSON
object lacks the required `filename` field (Python's `KeyError` path) has
its line number warned while the rest of the file still loads. -/
theorem load_inventory_skips_malformed_witness :
    Load.lineBad (Load.InvLine.obj ⟨some "d", none, some 3, none, none⟩) = true ∧
    (1 + ([Load.InvLine.blank] : List Load.InvLine).length) ∈
      (Load.load_inventory 1 ([Load.InvLine.blank] ++
        Load.InvLine.obj ⟨some "d", none, some 3, none, none⟩ :: [Load.InvLine.blank])).2 :=
  ⟨by decide,
    load_inventory_skips_malformed.2 1 [Load.InvLine.blank] [Load.InvLine.blank]
      (Load.InvLine.obj ⟨some "d", none, some 3, none, none⟩) (by decide)⟩

/-- A directory guard only ever contains the parent-creating command. -/
theorem mem_mkGuard {d : String} {cmd : Command} (h : cmd ∈ mkGuard d) :
    cmd = Command.mkdirp (pyParent d) := by
  rw [mkGuard] at h
  by_cases hc : pyParent d ≠ "" ∧ pyParent d ≠ "."
  · rw [if_pos hc] at h
    simpa using h
  · rw [if_neg hc] at h
    simp at h

/-- Without the delete-extra flag, the generated command list is exactly
echoes, guarded copies, and TODO comments. -/
theorem generate_false_eq (u : List (FileRecord × FileRecord))
    (c : List (FileRecord × String)) (m e : List FileRecord) (verbose : Bool)
    (level : Nat) :
    generate_unix_commands u c m e verbose false level =
      some ((if verbose then u.map (fun ut => Command.echoUnchanged ut.2.get_full_path) else [])
        ++ c.flatMap (fun rt => mkGuard rt.2 ++ [Command.cp rt.1.get_full_path rt.2])
        ++ m.map fun r => Command.todoMissing r.get_full_path) := rfl

/-- Without the delete-extra flag, the attempted operations are exactly
parent-creations and copies, and the messages are the verbose copy lines
plus the verbose-gated missing warning. -/
theorem execute_false_eq (u : List (FileRecord × FileRecord))
    (c : List (FileRecord × String)) (m e : List FileRecord) (verbose : Bool)
    (level : Nat) :
    execute_file_operations u c m e false verbose level =
      some (c.flatMap (fun rt =>
          [FsOp.mkdirParents (pyParent rt.2), FsOp.copy rt.1.get_full_path rt.2]),
        (if verbose then c.map (fun rt => copyMsg rt.1.get_full_path rt.2) else [])
          ++ if !m.isEmpty && verbose then [warnMissing m.length] else []) := rfl

/-- Every command generated without the delete-extra flag is an echo, a
directory guard, a copy, or a TODO comment — never an `rm` or a `mv`. -/
theorem false_cmds_shape (u : List (FileRecord × FileRecord))
    (c : List (FileRecord × String)) (m : List FileRecord) (verbose : Bool) :
    ∀ cmd ∈ ((if verbose then u.map (fun ut => Command.echoUnchanged ut.2.get_full_path)
        else [])
      ++ c.flatMap (fun rt => mkGuard rt.2 ++ [Command.cp rt.1.get_full_path rt.2])
      ++ m.map fun r => Command.todoMissing r.get_full_path),
      (∀ p, cmd ≠ Command.rm p) ∧ ∀ s d, cmd ≠ Command.mv s d := by
  intro cmd hcmd
  rw [List.mem_append, List.mem_append] at hcmd
  rcases hcmd with (hcmd | hcmd) | hcmd
  · cases verbose with
    | false => simp at hcmd
    | true =>
      rw [if_pos rfl, List.mem_map] at hcmd
      obtain ⟨ut, _, rfl⟩ := hcmd
      exact ⟨fun p => by simp, fun s d => by simp⟩
  · rw [List.mem_flatMap] at hcmd
    obtain ⟨rt, _, hin⟩ := hcmd
    rw [List.mem_append] at hin
    rcases hin with hin | hin
    · rw [mem_mkGuard hin]
      exact ⟨fun p => by simp, fun s d => by simp⟩
    · rw [List.mem_singleton] at hin
      subst hin
      exact ⟨fun p => by simp, fun s d => by simp⟩
  · rw [List.mem_map] at hcmd
    obtain ⟨r, _, rfl⟩ := hcmd
    exact ⟨fun p => by simp, fun s d => by simp⟩

/-- Every operation executed without the delete-extra flag is a
parent-creation or a copy — never an unlink or a move. -/
theorem false_ops_shape (c : List (FileRecord × String)) :
    ∀ op ∈ c.flatMap (fun rt =>
        [FsOp.mkdirParents (pyParent rt.2), FsOp.copy rt.1.get_full_path rt.2]),
      (∀ p, op ≠ FsOp.unlink p) ∧ ∀ s d, op ≠ FsOp.move s d := by
  intro op hop
  rw [List.mem_flatMap] at hop
  obtain ⟨rt, _, hin⟩ := hop
  simp only [List.mem_cons, List.not_mem_nil, or_false] at hin
  rcases hin with rfl | rfl
  · exact ⟨fun p => by simp, fun s d => by simp⟩
  · exact ⟨fun p => by simp, fun s d => by simp⟩

/-- C9 amended main statement: with the delete-extra flag unset neither the
dry-run plan nor execution removes anything (no rm, no mv, no unlink, no
move), leaving every extra file untouched; with the flag set, on a valid
level, every extra file's path appears either as an `rm` command or as the
source of a `mv` command (deleted or consumed by move folding — not
necessarily deleted). -/
theorem extras_deleted_only_with_flag (u : List (FileRecord × FileRecord))
    (c : List (FileRecord × String)) (m e : List FileRecord) (verbose : Bool)
    (level : Nat) :
    (∀ cmds, generate_unix_commands u c m e verbose false level = some cmds →
      (∀ p, Command.rm p ∉ cmds) ∧ ∀ s d, Command.mv s d ∉ cmds) ∧
    (∀ ops msgs, execute_file_operations u c m e false verbose level = some (ops, msgs) →
      (∀ p, FsOp.unlink p ∉ ops) ∧ ∀ s d, FsOp.move s d ∉ ops) ∧
    ((level = 1 ∨ level = 2 ∨ level = 3) →
      ∀ cmds, generate_unix_commands u c m e verbose true level = some cmds →
      ∀ r ∈ e, Command.rm r.get_full_path ∈ cmds ∨
        ∃ d, Command.mv r.get_full_path d ∈ cmds) := by
  refine ⟨?_, ?_, ?_⟩
  · intro cmds hcmds
    rw [generate_false_eq, Option.some.injEq] at hcmds
    subst hcmds
    constructor
    · intro p hp
      exact (false_cmds_shape u c m verbose _ hp).1 p rfl
    · intro s d hm
      exact (false_cmds_shape u c m verbose _ hm).2 s d rfl
  · intro ops msgs hops
    rw [execute_false_eq, Option.some.injEq, Prod.mk.injEq] at hops
    obtain ⟨hops1, _⟩ := hops
    subst hops1
    constructor
    · intro p hp
      exact (false_ops_shape c _ hp).1 p rfl
    · intro s d hm
      exact (false_ops_shape c _ hm).2 s d rfl
  · intro hl cmds hcmds r hr
    rw [generate_unix_commands] at hcmds
    rw [if_pos rfl, optimize_commands_valid c e level hl, Option.some.injEq] at hcmds
    subst hcmds
    have hperm := optimizeKeyed_del_perm level c e
    have hpath : r.get_full_path ∈ e.map FileRecord.get_full_path :=
      List.mem_map_of_mem FileRecord.get_full_path hr
    have hmem := hperm.symm.mem_iff.mp hpath
    rw [List.mem_append] at hmem
    rcases hmem with hmem | hmem
    · right
      rw [List.mem_map] at hmem
      obtain ⟨st, hst, hfst⟩ := hmem
      refine ⟨st.2, ?_⟩
      rw [List.mem_append, List.mem_append, List.mem_append, List.mem_append]
      left; left; left; right
      rw [List.mem_flatMap]
      refine ⟨st, hst, ?_⟩
      rw [List.mem_append, List.mem_singleton]
      right
      rw [hfst]
    · left
      rw [List.mem_map] at hmem
      obtain ⟨r', hr', hpath'⟩ := hmem
      rw [List.mem_append, List.mem_append, List.mem_append, List.mem_append]
      left; right
      rw [List.mem_map]
      refine ⟨r', hr', ?_⟩
      rw [hpath']

/-- Counterexample to "extras are deleted iff the flag is set": with the
flag SET, an extra consumed by move folding is never deleted — no `rm` is
emitted and no unlink would run; the extra b/x becomes the source of a move
instead. -/
theorem delete_extra_move_counterexample :
    generate_unix_commands [] [((⟨"c", "x", 1, none, none⟩ : FileRecord), "a/x")] []
        [⟨"b", "x", 1, none, none⟩] false true 1 =
      some [Command.mkdirp "a", Command.mv "b/x" "a/x"] := by decide

/-- Witness for the extras-deletion theorem at a concrete input with the
flag set: the extra of a distinct identity is deleted via rm. -/
theorem extras_deleted_only_with_flag_witness :
    (1 = 1 ∨ 1 = 2 ∨ 1 = 3) ∧
    generate_unix_commands [] [] [] [(⟨"b", "x", 1, none, none⟩ : FileRecord)] false true 1 =
      some [Command.rm "b/x"] ∧
    (Command.rm ((⟨"b", "x", 1, none, none⟩ : FileRecord).get_full_path) ∈
        [Command.rm "b/x"] ∨
      ∃ d, Command.mv ((⟨"b", "x", 1, none, none⟩ : FileRecord).get_full_path) d ∈
        [Command.rm "b/x"]) :=
  ⟨Or.inl rfl, by decide,
    (extras_deleted_only_with_flag [] [] [] [⟨"b", "x", 1, none, none⟩] false 1).2.2
      (Or.inl rfl) [Command.rm "b/x"] (by decide) ⟨"b", "x", 1, none, none⟩
      (List.mem_singleton.mpr rfl)⟩

/-- C10 main statement: in dir_mimic.py move folding happens only under the
delete-extra flag — with the flag unset the plan and the execution contain
no move at all, and every pending copy appears as a plain copy from its
originally chosen source record. -/
theorem no_move_folding_without_flag (u : List (FileRecord × FileRecord))
    (c : List (FileRecord × String)) (m e : List FileRecord) (verbose : Bool)
    (level : Nat) :
    (∃ cmds, generate_unix_commands u c m e verbose false level = some cmds ∧
      (∀ s d, Command.mv s d ∉ cmds) ∧
      ∀ rt ∈ c, Command.cp rt.1.get_full_path rt.2 ∈ cmds) ∧
    (∃ ops msgs, execute_file_operations u c m e false verbose level = some (ops, msgs) ∧
      (∀ s d, FsOp.move s d ∉ ops) ∧
      ∀ rt ∈ c, FsOp.copy rt.1.get_full_path rt.2 ∈ ops) := by
  constructor
  · refine ⟨_, generate_false_eq u c m e verbose level, ?_, ?_⟩
    · intro s d hm
      exact (false_cmds_shape u c m verbose _ hm).2 s d rfl
    · intro rt hrt
      rw [List.mem_append, List.mem_append]
      left; right
      rw [List.mem_flatMap]
      refine ⟨rt, hrt, ?_⟩
      rw [List.mem_append, List.mem_singleton]
      right
      rfl
  · refine ⟨_, _, execute_false_eq u c m e verbose level, ?_, ?_⟩
    · intro s d hm
      exact (false_ops_shape c _ hm).2 s d rfl
    · intro rt hrt
      rw [List.mem_flatMap]
      refine ⟨rt, hrt, ?_⟩
      simp

/-- Witness for the no-move-without-flag theorem: a copy and a same-identity
extra, flag unset — the plan still contains only the plain copy. -/
theorem no_move_folding_without_flag_witness :
    generate_unix_commands [] [((⟨"c", "x", 1, none, none⟩ : FileRecord), "a/x")] []
        [⟨"b", "x", 1, none, none⟩] false false 1 =
      some [Command.mkdirp "a", Command.cp "c/x" "a/x"] ∧
    Command.cp "c/x" "a/x" ∈ [Command.mkdirp "a", Command.cp "c/x" "a/x"] := by
  refine ⟨by decide, ?_⟩
  have h := (no_move_folding_without_flag []
    [((⟨"c", "x", 1, none, none⟩ : FileRecord), "a/x")] []
    [⟨"b", "x", 1, none, none⟩] false 1).1
  obtain ⟨cmds, hcmds, _, hcp⟩ := h
  have hc := hcp ((⟨"c", "x", 1, none, none⟩ : FileRecord), "a/x") (by decide)
  have heq : cmds = [Command.mkdirp "a", Command.cp "c/x" "a/x"] := by
    have : some cmds = some [Command.mkdirp "a", Command.cp "c/x" "a/x"] := by
      rw [← hcmds]
      decide
    exact Option.some.injEq _ _ ▸ this
  rw [heq] at hc
  exact (show Command.cp ((⟨"c", "x", 1, none, none⟩ : FileRecord)).get_full_path "a/x"
      = Command.cp "c/x" "a/x" from rfl) ▸ hc
